import Mathlib

/-!
Verification development for the `pay_model` payment-settlement library.

The Rust sources are shallowly embedded as executable Lean definitions:

* Machine integers (`U256`, `u64`, `u32`, `u16`, `u8`) are modelled as `Nat`.
  Operations the source performs through `checked_*` are modelled with an
  explicit `2 ^ 256` bound.  Unchecked `+`/`+=` on `U256` wraps in alloy:
  where a property quantifies over all inputs (the per-`pay_id` accumulation
  of the overpay checker) the model carries an explicit `% 2 ^ 256`;
  elsewhere it is plain `Nat` addition, used only on concrete in-range
  values where the two semantics coincide.
* The 256-bit Keccak digest (`B256`) is modelled as `Nat`.  `B256::default()`
  is `0`.  The source only ever feeds Keccak a concatenation of fixed-width
  fields (32-byte words, 20-byte addresses, 4-byte ids, single bytes, 65-byte
  signatures), so a hash input is modelled as the list of its field values and
  `keccak256` as a free injective pairing function that never returns `0`.
  This captures the spec's idealisation of an opaque collision-resistant hash:
  equal field lists give equal digests, distinct field lists give distinct
  digests.
* secp256k1 signing/recovery is opaque (per the spec, curve operations are
  external and assumed correct): a signature produced by `sign` remembers the
  secret key and the signed message hash; `recover` applied to the same
  message hash returns the signer's public key, and applied to any other
  message hash returns an unrelated point (which is what ECDSA public-key
  recovery does, up to negligible probability).
* Stateful Rust methods become state-passing functions; fallible methods
  return `Except Err α` where `Err` flattens the `BoxError` values the source
  produces (tree errors and domain errors alike, as in the Rust typing).
-/

/-- Injective encoding of a list of field values into `Nat`
(`0` encodes only the empty list). -/
def packFields (fields : List Nat) : Nat :=
  fields.foldr (fun a r => Nat.pair a r + 1) 0

/-- Keccak-256 over a packed sequence of fixed-width fields, modelled as a free
injective function.  The `+ 1` keeps every digest distinct from
`B256::default() = 0`. -/
def keccak256 (fields : List Nat) : Nat :=
  packFields fields + 1

/-- Chained hash `H(prev_digest || new_data)` (`keccak256_more` in `lib.rs`),
where `new_data` is a single 32-byte value in every use inside the model. -/
def keccak256_more (prev : Nat) (data : Nat) : Nat :=
  keccak256 [prev, data]

/-- Modulus of the 256-bit unsigned integer type. -/
def U256MOD : Nat := 2 ^ 256

/-- `U256::checked_add`. -/
def checked_add (a b : Nat) : Option Nat :=
  if a + b < U256MOD then some (a + b) else none

/-- `U256::checked_mul`. -/
def checked_mul (a b : Nat) : Option Nat :=
  if a * b < U256MOD then some (a * b) else none

/-- `U256::checked_div`. -/
def checked_div (a b : Nat) : Option Nat :=
  if b = 0 then none else some (a / b)

/-- `U256::checked_sub`. -/
def checked_sub (a b : Nat) : Option Nat :=
  if b ≤ a then some (a - b) else none

/-- The error values the library produces.  In the source everything is a
`BoxError` (the structural `Error` enum of `segment_vc.rs` boxed, or an ad-hoc
message string); here each distinct failure is one constructor. -/
inductive Err where
  | keyExists
  | keyNotFound
  | indexOutOfBounds
  | invalidProof
  | invalidHash
  | emptyProfitResults
  | inconsistentProxy
  | inconsistentPayIdsRoot
  | inconsistentReceiptsRoot
  | overpayCheckPayIdsRootMismatch
  | invalidChannel
  | unsettledPayment
  | duplicatePayment
  | overpaymentDetected (payId : Nat)
  | payIdNotFound (payId : Nat)
  | invalidProxyInPayIdInfo
  | invalidReceiptsHash
  | invalidMerkleProof
  | invalidReceiverInReceipt
  | invalidSenderSignature
  | invalidProxySignature
  | recoverFailed
  | multiplicationOverflow
  | divisionByZero
  | additionOverflow
  | subtractionOverflow
  | serviceConfigNotFound (servId : Nat)
  | paymentsRootMismatch
  | receiverMismatch
  | profitOverflow
deriving DecidableEq, Repr

/-- Decidable equality of `Except` results, so concrete runs of the fallible
pipeline functions can be checked by `decide`. -/
instance {ε α : Type} [DecidableEq ε] [DecidableEq α] : DecidableEq (Except ε α) := fun a b =>
  match a, b with
  | .ok x, .ok y => if h : x = y then .isTrue (by rw [h]) else .isFalse (by simp [h])
  | .error x, .error y => if h : x = y then .isTrue (by rw [h]) else .isFalse (by simp [h])
  | .ok _, .error _ => .isFalse (by simp)
  | .error _, .ok _ => .isFalse (by simp)

/-! ### Opaque secp256k1 layer (`lib.rs`, signature helpers)

Public keys, signatures and recovery are modelled symbolically.  Tags keep
the ranges of the different constructors disjoint. -/

/-- `PublicKey::from_secret_key`. -/
def pubOfSecret (sk : Nat) : Nat :=
  Nat.pair 0 sk

/-- The public key produced by ECDSA recovery when the supplied message hash
differs from the hash that was signed: a well-defined curve point that is
unrelated to (in particular, distinct from) any honest `pubOfSecret _`. -/
def strayPubkey (sk signedHash givenHash : Nat) : Nat :=
  Nat.pair 3 (Nat.pair (Nat.pair sk signedHash) givenHash)

/-- `get_ethereum_address`: the last 20 bytes of the Keccak-256 hash of the
serialized public key without its prefix byte. -/
def get_ethereum_address (pubkey : Nat) : Nat :=
  keccak256 [pubkey] % 2 ^ 160

/-- A 65-byte `r || s || recovery_id` signature: either produced by `sign`
over a message hash with a secret key, or an arbitrary byte constant (as in
unsigned test receipts such as `[0u8; 65]`). -/
inductive Sig where
  | signed (sk : Nat) (msgHash : Nat)
  | raw (bytes : Nat)
deriving DecidableEq, Repr

/-- Injection of a 65-byte signature into the packed-field space (signatures
are embedded verbatim in several hash preimages). -/
def sigField : Sig → Nat
  | .signed sk msgHash => Nat.pair 1 (Nat.pair sk msgHash)
  | .raw bytes => Nat.pair 2 bytes

/-- `libsecp256k1::sign` (already combined with hashing done by callers):
signing `msgHash` with `sk`. -/
def ecSign (sk msgHash : Nat) : Sig :=
  .signed sk msgHash

/-- `libsecp256k1::recover` on a parsed signature: recovery with the signed
hash returns the signer's public key; recovery with any other hash returns a
stray point; arbitrary signature bytes fail to parse/recover. -/
def ecRecover (msgHash : Nat) : Sig → Except Err Nat
  | .signed sk signedHash =>
    if signedHash = msgHash then .ok (pubOfSecret sk)
    else .ok (strayPubkey sk signedHash msgHash)
  | .raw _ => .error .recoverFailed

/-- Field value of a `bool` packed as a single byte. -/
def boolField (b : Bool) : Nat :=
  if b then 1 else 0

/-! ### `models/hashstore.rs` — `CircularHashStore` -/

structure CircularHashStore where
  hashes : List Nat
  history_hash : Nat
  total_added : Nat
  capacity : Nat
deriving DecidableEq, Repr

namespace CircularHashStore

/-- `CircularHashStore::new`. -/
def new (capacity : Nat) : CircularHashStore :=
  ⟨[], 0, 0, capacity⟩

/-- `CircularHashStore::current_size`. -/
def current_size (s : CircularHashStore) : Nat :=
  s.hashes.length

/-- `CircularHashStore::hash_exists`. -/
def hash_exists (s : CircularHashStore) (hash : Nat) : Bool :=
  s.hashes.contains hash

/-- `CircularHashStore::add_hash`.  When the live window is full the oldest
entry is evicted into `history_hash` (first eviction stores it directly,
later ones fold with the chained hash).  With `capacity = 0` the Rust code
would panic on `remove(0)` of an empty vector; the model folds a default `0`
instead — all theorems below assume `1 ≤ capacity`, where the two agree. -/
def add_hash (s : CircularHashStore) (hash : Nat) : Except Err (CircularHashStore × Nat) :=
  if hash = 0 then .error .invalidHash
  else
    let s :=
      if s.hashes.length = s.capacity then
        let old := s.hashes.headD 0
        let history :=
          if s.history_hash = 0 then old
          else keccak256_more s.history_hash old
        ⟨s.hashes.tail, history, s.total_added, s.capacity⟩
      else s
    .ok (⟨s.hashes ++ [hash], s.history_hash, s.total_added + 1, s.capacity⟩, s.hashes.length)

/-- `CircularHashStore::check_hash`: membership in the live window, or replay
of the eviction fold starting from `hash` over a non-empty `history_proof`. -/
def check_hash (s : CircularHashStore) (hash : Nat) (history_proof : List Nat) : Bool :=
  if s.hashes.contains hash then true
  else if history_proof.isEmpty then false
  else decide (history_proof.foldl (fun c p => keccak256_more c p) hash = s.history_hash)

/-- Folding a list of hashes into the store one by one. -/
def addList (s : CircularHashStore) (l : List Nat) : Except Err CircularHashStore :=
  match l with
  | [] => .ok s
  | h :: t =>
    match s.add_hash h with
    | .error e => .error e
    | .ok (s, _) => addList s t

end CircularHashStore

/-! ### `models/segment_vc.rs` — `SegmentVC` and `MerkleProof` -/

/-- Tree shape constant (`SEGMENT_SIZE = CHUNK_SIZE = NODE_WIDTH = 16`). -/
def SEGMENT_SIZE : Nat := 16

structure Segment where
  values : List Nat
  chunk_hashes : List Nat
  root : Nat
  size : Nat
deriving DecidableEq, Repr

/-- A freshly pushed segment (`values`/`chunk_hashes` empty, default root;
the `size` field is never updated by the current source). -/
def Segment.empty : Segment := ⟨[], [], 0, 0⟩

structure ValueProof where
  value : Nat
  chunk_hash : Nat
deriving DecidableEq, Repr

structure SegmentProof where
  chunk_index : Nat
  siblings : List Nat
deriving DecidableEq, Repr

structure LevelProof where
  level : Nat
  node_index : Nat
  siblings : List Nat
deriving DecidableEq, Repr

structure MerkleProof where
  value_proof : ValueProof
  segment_proof : SegmentProof
  level_proofs : List LevelProof
  root_hash : Nat
deriving DecidableEq, Repr

inductive BuilderMode where
  | building
  | built
deriving DecidableEq, Repr

structure SegmentVC where
  segments : List Segment
  total_size : Nat
  root_hash : Nat
  merkle_nodes : List (List Nat)
  indices : List (Nat × Nat)
  root_history : CircularHashStore
  building_mode : BuilderMode
deriving DecidableEq, Repr

/-- Grow a value vector with default (`0`) entries until index `i` exists,
then write `v` there (`while values.len() <= local_index push default` plus
the indexed assignment). -/
def padSet (l : List Nat) (i : Nat) (v : Nat) : List Nat :=
  (l ++ List.replicate (i + 1 - l.length) 0).set i v

/-- Splitting a node list into the `chunks(SEGMENT_SIZE)` groups used to build
one tree level (fuel-indexed so that the kernel can evaluate it; the fuel
`l.length` always suffices). -/
def chunksAux : Nat → List Nat → List (List Nat)
  | 0, _ => []
  | _, [] => []
  | fuel + 1, l => l.take SEGMENT_SIZE :: chunksAux fuel (l.drop SEGMENT_SIZE)

def chunks16 (l : List Nat) : List (List Nat) :=
  chunksAux l.length l

/-- All levels of the upper tree, from the segment roots (level 0) up to the
single-node root level, as built by the `while current_level_nodes.len() > 1`
loop of `update_merkle_tree`. -/
def buildLevelsAux : Nat → List Nat → List (List Nat)
  | 0, nodes => [nodes]
  | fuel + 1, nodes =>
    if nodes.length ≤ 1 then [nodes]
    else nodes :: buildLevelsAux fuel ((chunks16 nodes).map keccak256)

def buildLevels (nodes : List Nat) : List (List Nat) :=
  buildLevelsAux nodes.length nodes

/-- The root produced by `update_merkle_tree`: the single node of the last
level (`current_level_nodes[0]` after the loop). -/
def rootOf (levels : List (List Nat)) : Nat :=
  (levels.getLastD []).headD 0

namespace SegmentVC

/-- `SegmentVC::new`. -/
def new (capacity : Nat) : SegmentVC :=
  ⟨[Segment.empty], 0, 0, [], [], CircularHashStore.new capacity, .built⟩

/-- `SegmentVC::get_root_hash`. -/
def get_root_hash (vc : SegmentVC) : Nat :=
  vc.root_hash

/-- `SegmentVC::update_segment`: write the value, then recompute every chunk
hash of the owning segment and its root. -/
def update_segment (vc : SegmentVC) (segment_index local_index : Nat) (value : Nat) : SegmentVC :=
  let seg := vc.segments.getD segment_index Segment.empty
  let values := padSet seg.values local_index value
  let chunk_hashes := values.map fun v => keccak256 [v]
  let root := keccak256 chunk_hashes
  { vc with segments := vc.segments.set segment_index ⟨values, chunk_hashes, root, seg.size⟩ }

/-- `SegmentVC::update_merkle_tree`: rebuild every level from the current
segment roots, record the root in the history store and return it.  (In the
source the level maps are re-inserted into the retained `HashMap`; as the
level count never decreases across the mutations the library performs, that
equals wholesale replacement.) -/
def update_merkle_tree (vc : SegmentVC) : Except Err (SegmentVC × Nat) :=
  let levels := buildLevels (vc.segments.map (·.root))
  let root := rootOf levels
  match vc.root_history.add_hash root with
  | .error e => .error e
  | .ok (hist, _) =>
    .ok ({ vc with merkle_nodes := levels, root_hash := root, root_history := hist }, root)

/-- `SegmentVC::start_building`. -/
def start_building (vc : SegmentVC) : SegmentVC :=
  { vc with building_mode := .building }

/-- `SegmentVC::insert`: reject duplicate keys, assign the next sequential
slot, stage the value, and in `Built` mode recompute the owning segment and
the upper tree. -/
def insert (vc : SegmentVC) (key value : Nat) : Except Err (SegmentVC × Nat) :=
  if (vc.indices.lookup key).isSome then .error .keyExists
  else
    let current_segment := vc.total_size / SEGMENT_SIZE
    let local_index := vc.total_size % SEGMENT_SIZE
    let segments := vc.segments ++ List.replicate (current_segment + 1 - vc.segments.length) Segment.empty
    let total_size := vc.total_size + 1
    let indices := (key, total_size) :: vc.indices
    let seg := segments.getD current_segment Segment.empty
    let segments := segments.set current_segment { seg with values := padSet seg.values local_index value }
    let vc := { vc with segments := segments, total_size := total_size, indices := indices }
    match vc.building_mode with
    | .built => (vc.update_segment current_segment local_index value).update_merkle_tree
    | .building => .ok (vc, vc.root_hash)

/-- Repeated `insert`, discarding the intermediate roots. -/
def insertList (vc : SegmentVC) (entries : List (Nat × Nat)) : Except Err SegmentVC :=
  match entries with
  | [] => .ok vc
  | (k, v) :: t =>
    match vc.insert k v with
    | .error e => .error e
    | .ok (vc, _) => vc.insertList t

/-- One segment's pass of `finish_building`: re-run `update_segment` for
every staged non-default value. -/
def finish_segment (vc : SegmentVC) (segment_index : Nat) : SegmentVC :=
  let seg := vc.segments.getD segment_index Segment.empty
  seg.values.enum.foldl
    (fun vc p => if p.2 ≠ 0 then vc.update_segment segment_index p.1 p.2 else vc) vc

/-- `SegmentVC::finish_building`: when leaving `Building` mode, recompute
every segment containing a staged value, rebuild the upper tree once, and
return to `Built` mode.  (`segments.len() > 0` always holds, so the guarded
`update_merkle_tree` call is unconditional here.) -/
def finish_building (vc : SegmentVC) : Except Err (SegmentVC × Nat) :=
  match vc.building_mode with
  | .building =>
    let vc := (List.range vc.segments.length).foldl (fun vc si => vc.finish_segment si) vc
    match vc.update_merkle_tree with
    | .error e => .error e
    | .ok (vc, _) => .ok ({ vc with building_mode := .built }, vc.root_hash)
  | .built => .ok (vc, vc.root_hash)

/-- `SegmentVC::insert_batch` = `start_building` + inserts + `finish_building`. -/
def insert_batch (vc : SegmentVC) (entries : List (Nat × Nat)) : Except Err (SegmentVC × Nat) :=
  match vc.start_building.insertList entries with
  | .error e => .error e
  | .ok vc => vc.finish_building

end SegmentVC

/-- The sibling group of node `current` inside its fan-in group at one level
(`group_start .. group_end` minus the node itself). -/
def mkLevelProof (nodes : List Nat) (current : Nat) (level : Nat) : LevelProof :=
  let group_start := current / SEGMENT_SIZE * SEGMENT_SIZE
  let group_end := min (group_start + SEGMENT_SIZE) nodes.length
  let group := (nodes.drop group_start).take (group_end - group_start)
  ⟨level, current % SEGMENT_SIZE, group.eraseIdx (current % SEGMENT_SIZE)⟩

/-- The `for level in 0..merkle_nodes.len()-1` loop of `generate_proof`:
one `LevelProof` per stored level below the root level. -/
def levelProofsFrom : List (List Nat) → Nat → Nat → List LevelProof
  | [], _, _ => []
  | nodes :: rest, current, level =>
    mkLevelProof nodes current level :: levelProofsFrom rest (current / SEGMENT_SIZE) (level + 1)

namespace SegmentVC

/-- `SegmentVC::generate_proof`.  Out-of-range accesses (impossible in the
`Built` states the library reaches) are modelled with default values. -/
def generate_proof (vc : SegmentVC) (key : Nat) : Except Err MerkleProof :=
  match vc.indices.lookup key with
  | none => .error .keyNotFound
  | some index =>
    let segment_index := (index - 1) / SEGMENT_SIZE
    let local_index := (index - 1) % SEGMENT_SIZE
    let seg := vc.segments.getD segment_index Segment.empty
    let value := seg.values.getD local_index 0
    let chunk_hash := seg.chunk_hashes.getD local_index 0
    let chunk_siblings := seg.chunk_hashes.eraseIdx local_index
    let level_proofs := levelProofsFrom vc.merkle_nodes.dropLast segment_index 0
    .ok ⟨⟨value, chunk_hash⟩, ⟨local_index, chunk_siblings⟩, level_proofs, vc.root_hash⟩

/-- `SegmentVC::verify`: structural value check, then acceptance of the
current root or a root found by the history store — the call passes an
**empty** history proof. -/
def verify (vc : SegmentVC) (key value history_root : Nat) : Except Err Bool :=
  match vc.indices.lookup key with
  | none => .error .keyNotFound
  | some index =>
    let segment_index := (index - 1) / SEGMENT_SIZE
    let local_index := (index - 1) % SEGMENT_SIZE
    let seg := vc.segments.getD segment_index Segment.empty
    if value ≠ seg.values.getD local_index 0 then .ok false
    else .ok (decide (history_root = vc.root_hash) || vc.root_history.check_hash history_root [])

end SegmentVC

/-- Rebuilding one fan-in group in `MerkleProof::verify`: the claimed hash is
placed at its index and the supplied siblings fill the remaining slots in
order. -/
def reconstructAt (siblings : List Nat) (idx : Nat) (cur : Nat) : List Nat :=
  siblings.take idx ++ cur :: siblings.drop idx

/-- `MerkleProof::verify`: value-to-chunk check, single-leaf shortcut,
segment reconstruction, then the fold up the level proofs. -/
def MerkleProof.verify (p : MerkleProof) : Bool :=
  let calculated_chunk := keccak256 [p.value_proof.value]
  if calculated_chunk ≠ p.value_proof.chunk_hash then false
  else if p.segment_proof.siblings.isEmpty
      ∧ p.root_hash = calculated_chunk ∧ calculated_chunk = p.value_proof.chunk_hash then true
  else
    let all_chunks := reconstructAt p.segment_proof.siblings p.segment_proof.chunk_index p.value_proof.chunk_hash
    let seg_root := keccak256 all_chunks
    let final := p.level_proofs.foldl
      (fun cur lp => keccak256 (reconstructAt lp.siblings lp.node_index cur)) seg_root
    decide (final = p.root_hash)

/-! ### `models/pay_id_infos.rs`, `models/mod.rs` — domain records -/

structure PayIdInfo where
  id : Nat
  amount : Nat
  sender : Nat
  proxy : Nat
  state : Nat
  created_at : Nat
  closing_time : Nat
deriving DecidableEq, Repr

/-- `PayIdInfo::hash`: Keccak over the packed
`id ‖ amount ‖ sender ‖ proxy ‖ state ‖ created_at ‖ closing_time`. -/
def PayIdInfo.hash (p : PayIdInfo) : Nat :=
  keccak256 [p.id, p.amount, p.sender, p.proxy, p.state, p.created_at, p.closing_time]

structure ServiceFeeConfig where
  serv_id : Nat
  system_fee_rate : Nat
  proxy_fee_rate : Nat
deriving DecidableEq, Repr

/-- A 20-byte address zero-padded into a 32-byte word keeps its numeric
value (`eth_address_to_B256` in `lib.rs`). -/
def eth_address_to_B256 (addr : Nat) : Nat :=
  addr

/-! ### `receipts/mod.rs` — `Payment` and `PaymentSettledByProxy` -/

structure Payment where
  pay_id : Nat
  serv_id : Nat
  amount : Nat
  receiver : Nat
  sig_sender : Sig
deriving DecidableEq, Repr

namespace Payment

/-- `Payment::sign`: the signed preimage packs
`pay_id ‖ serv_id ‖ amount ‖ receiver` (the `amount` field **is** included).
The source only fails on `Message::parse_slice` of a 32-byte hash, which
cannot happen, so the model is total. -/
def sign (p : Payment) (sk : Nat) : Payment :=
  { p with sig_sender := ecSign sk (keccak256 [p.pay_id, p.serv_id, p.amount, p.receiver]) }

/-- `Payment::recover_signer`: the rebuilt preimage packs
`pay_id ‖ serv_id ‖ receiver` — the `amount` field is **omitted** here,
unlike in `sign`. -/
def recover_signer (p : Payment) : Except Err Nat :=
  ecRecover (keccak256 [p.pay_id, p.serv_id, p.receiver]) p.sig_sender

/-- `Payment::get_signer_address`. -/
def get_signer_address (p : Payment) : Except Err Nat :=
  match p.recover_signer with
  | .error e => .error e
  | .ok pubkey => .ok (get_ethereum_address pubkey)

end Payment

structure PaymentSettledByProxy where
  pay_id : Nat
  serv_id : Nat
  amount : Nat
  receiver : Nat
  sig_sender : Sig
  settled : Bool
  sig_proxy : Sig
deriving DecidableEq, Repr

namespace PaymentSettledByProxy

/-- `PaymentSettledByProxy::hash`: Keccak over all seven packed fields. -/
def hash (p : PaymentSettledByProxy) : Nat :=
  keccak256 [p.pay_id, p.serv_id, p.amount, p.receiver,
    sigField p.sig_sender, boolField p.settled, sigField p.sig_proxy]

/-- `PaymentSettledByProxy::hash_for_signing`: all fields except `sig_proxy`;
also the preimage packed by `sign_by_proxy` and `recover_proxy_signer`. -/
def hash_for_signing (p : PaymentSettledByProxy) : Nat :=
  keccak256 [p.pay_id, p.serv_id, p.amount, p.receiver,
    sigField p.sig_sender, boolField p.settled]

/-- `PaymentSettledByProxy::to_key`: Keccak over
`pay_id ‖ serv_id ‖ receiver`. -/
def to_key (p : PaymentSettledByProxy) : Nat :=
  keccak256 [p.pay_id, p.serv_id, p.receiver]

/-- `PaymentSettledByProxy::sign_by_proxy`. -/
def sign_by_proxy (p : PaymentSettledByProxy) (sk : Nat) : PaymentSettledByProxy :=
  { p with sig_proxy := ecSign sk p.hash_for_signing }

/-- `PaymentSettledByProxy::recover_proxy_signer` (same preimage as
`sign_by_proxy`, `amount` included). -/
def recover_proxy_signer (p : PaymentSettledByProxy) : Except Err Nat :=
  ecRecover p.hash_for_signing p.sig_proxy

/-- `PaymentSettledByProxy::get_proxy_address`. -/
def get_proxy_address (p : PaymentSettledByProxy) : Except Err Nat :=
  match p.recover_proxy_signer with
  | .error e => .error e
  | .ok pubkey => .ok (get_ethereum_address pubkey)

/-- The temporary `Payment` built by `get_sender_address`. -/
def toPayment (p : PaymentSettledByProxy) : Payment :=
  ⟨p.pay_id, p.serv_id, p.amount, p.receiver, p.sig_sender⟩

/-- `PaymentSettledByProxy::get_sender_address` — delegates to
`Payment::get_signer_address` on the rebuilt `Payment`. -/
def get_sender_address (p : PaymentSettledByProxy) : Except Err Nat :=
  p.toPayment.get_signer_address

end PaymentSettledByProxy

/-- `From<Payment> for PaymentSettledByProxy` (amount carried over, not yet
settled, default proxy signature `[0u8; 65]`). -/
def Payment.toSettled (p : Payment) : PaymentSettledByProxy :=
  ⟨p.pay_id, p.serv_id, p.amount, p.receiver, p.sig_sender, false, .raw 0⟩

/-- `PaymentSettledByProxy::set_settlement`. -/
def PaymentSettledByProxy.set_settlement
    (p : PaymentSettledByProxy) (amount : Nat) (settled : Bool) : PaymentSettledByProxy :=
  { p with amount := amount, settled := settled }

/-! ### `receipts/pay_ids_to_segvc.rs` — `PayIdsProcessor` -/

namespace PayIdsProcessor

/-- `PayIdsProcessor::create_segment_vc`: sort the records ascending by id
(`sort_by` is a stable sort, as is `List.insertionSort`), batch-insert
`(id, record_hash)` pairs into a fresh `SegmentVC`. -/
def create_segment_vc (pay_ids : List PayIdInfo) : Except Err (SegmentVC × Nat) :=
  let sorted_pay_ids := List.insertionSort (fun a b => a.id ≤ b.id) pay_ids
  let entries := sorted_pay_ids.map fun p => (p.id, p.hash)
  (SegmentVC.new entries.length).insert_batch entries

/-- `PayIdsProcessor::get_root_hash`. -/
def get_root_hash (pay_ids : List PayIdInfo) : Except Err Nat :=
  match create_segment_vc pay_ids with
  | .error e => .error e
  | .ok (_, root) => .ok root

end PayIdsProcessor

/-! ### `receipts/payment_grouper.rs` — `PaymentsGrouper` -/

structure ReceiverProof where
  receiver : Nat
  proof : MerkleProof
deriving DecidableEq, Repr

namespace PaymentsGrouper

/-- One receiver's aggregate leaf value: entries `(to_key, hash)` of the
receiver's payments (in input order, as the `HashMap` groups preserve it),
sorted by key, then a single Keccak over the payment hashes in that order. -/
def receiverLeaf (payments : List PaymentSettledByProxy) (r : Nat) : Nat :=
  let group := payments.filter fun p => p.receiver == r
  let entries := List.insertionSort (fun a b => a.1 ≤ b.1) (group.map fun p => (p.to_key, p.hash))
  keccak256 (entries.map Prod.snd)

/-- The proof-collection loop of `group_by_receiver`. -/
def proofsFor (vc : SegmentVC) : List Nat → Except Err (List ReceiverProof)
  | [] => .ok []
  | r :: rest =>
    match vc.generate_proof (eth_address_to_B256 r) with
    | .error e => .error e
    | .ok proof =>
      match proofsFor vc rest with
      | .error e => .error e
      | .ok ps => .ok (⟨r, proof⟩ :: ps)

/-- `PaymentsGrouper::group_by_receiver`: group by receiver, build one
aggregate leaf per receiver, batch-insert the leaves keyed by the padded
receiver address (receivers sorted ascending), and emit one inclusion proof
per receiver. -/
def group_by_receiver (payments : List PaymentSettledByProxy) : Except Err (Nat × List ReceiverProof) :=
  let receivers := List.insertionSort (fun a b => a ≤ b) (payments.map (·.receiver)).dedup
  let all_entries := receivers.map fun r => (eth_address_to_B256 r, receiverLeaf payments r)
  match (SegmentVC.new all_entries.length).insert_batch all_entries with
  | .error e => .error e
  | .ok (vc, root) =>
    match proofsFor vc receivers with
    | .error e => .error e
    | .ok receiver_proofs => .ok (root, receiver_proofs)

end PaymentsGrouper

/-! ### `receipts/overpay_checker.rs` — `ReceiptsOverpayChecker` -/

structure OverpayCheckResult where
  payments_root : Nat
  receiver_proofs : List ReceiverProof
  pay_ids_root : Nat
deriving DecidableEq, Repr

namespace ReceiptsOverpayChecker

/-- `validate_prerequisites`: channel check, settled check, uniqueness of
`(pay_id, serv_id, receiver)` keys — fail-fast in that order. -/
def validate_prerequisites (channel : Nat) (pay_id_infos : List PayIdInfo)
    (settled_payments : List PaymentSettledByProxy) : Except Err Unit :=
  if ¬ pay_id_infos.all (fun info => info.proxy == channel) then .error .invalidChannel
  else if ¬ settled_payments.all (·.settled) then .error .unsettledPayment
  else if ¬ (settled_payments.map fun p => (p.pay_id, p.serv_id, p.receiver)).Nodup then
    .error .duplicatePayment
  else .ok ()

/-- Total settled amount accumulated for one `pay_id` (the `pay_id_totals`
entry).  The bare `+=` of the source is alloy `U256` addition, which wraps
modulo `2 ^ 256` — each accumulation step carries the explicit bound. -/
def sumFor (settled_payments : List PaymentSettledByProxy) (pid : Nat) : Nat :=
  ((settled_payments.filter fun p => p.pay_id == pid).map (·.amount)).foldl
    (fun acc a => (acc + a) % U256MOD) 0

/-- The authorised amount for a `pay_id` (`pay_id_info_map`; building a
`HashMap` from an iterator keeps the **last** entry for a duplicate id). -/
def lookupAmount (pay_id_infos : List PayIdInfo) (pid : Nat) : Option Nat :=
  (pay_id_infos.reverse.find? fun info => info.id == pid).map (·.amount)

/-- The verification loop of `validate_overpayment` over the distinct
`pay_id`s (the Rust `HashMap` iteration order is unspecified; the model
fixes first-occurrence order, which has the same success/failure outcome and
the same error whenever at most one `pay_id` violates). -/
def checkPids (pay_id_infos : List PayIdInfo) (settled_payments : List PaymentSettledByProxy) :
    List Nat → Except Err Unit
  | [] => .ok ()
  | pid :: rest =>
    match lookupAmount pay_id_infos pid with
    | some max_amount =>
      if sumFor settled_payments pid > max_amount then .error (.overpaymentDetected pid)
      else checkPids pay_id_infos settled_payments rest
    | none => .error (.payIdNotFound pid)

/-- `validate_overpayment`: per-`pay_id` totals must not exceed the matching
`PayIdInfo` amount; a `pay_id` without a matching record is an error. -/
def validate_overpayment (pay_id_infos : List PayIdInfo)
    (settled_payments : List PaymentSettledByProxy) : Except Err Unit :=
  checkPids pay_id_infos settled_payments (settled_payments.map (·.pay_id)).dedup

/-- `ReceiptsOverpayChecker::process`. -/
def process (channel : Nat) (pay_id_infos : List PayIdInfo)
    (settled_payments : List PaymentSettledByProxy) : Except Err OverpayCheckResult :=
  match validate_prerequisites channel pay_id_infos settled_payments with
  | .error e => .error e
  | .ok _ =>
    match validate_overpayment pay_id_infos settled_payments with
    | .error e => .error e
    | .ok _ =>
      match PaymentsGrouper.group_by_receiver settled_payments with
      | .error e => .error e
      | .ok (payments_root, receiver_proofs) =>
        match PayIdsProcessor.get_root_hash pay_id_infos with
        | .error e => .error e
        | .ok pay_ids_root => .ok ⟨payments_root, receiver_proofs, pay_ids_root⟩

end ReceiptsOverpayChecker

/-! ### `receipts/profit_calculator.rs` — `ReceiptsProfitCalculator` -/

structure ProfitResult where
  receiver : Nat
  proxy : Nat
  receipts_root : Nat
  pay_ids_root : Nat
  serv_ids_root : Nat
  system_profit : Nat
  proxy_profit : Nat
  receiver_profit : Nat
deriving DecidableEq, Repr

namespace ReceiptsProfitCalculator

/-- `calculate_pay_ids_root`: sort the records by id, then one Keccak over
the concatenated record hashes (no tree). -/
def calculate_pay_ids_root (pay_id_infos : List PayIdInfo) : Nat :=
  keccak256 ((List.insertionSort (fun a b => a.id ≤ b.id) pay_id_infos).map (·.hash))

/-- `calculate_serv_ids_root`: sort the fee configs by `serv_id`, then one
Keccak over the packed `serv_id ‖ system_fee_rate ‖ proxy_fee_rate` fields. -/
def calculate_serv_ids_root (service_configs : List ServiceFeeConfig) : Nat :=
  keccak256 ((List.insertionSort (fun a b => a.serv_id ≤ b.serv_id) service_configs).foldr
    (fun c acc => c.serv_id :: c.system_fee_rate :: c.proxy_fee_rate :: acc) [])

/-- The `fee_configs` lookup table (last entry wins for a duplicate
`serv_id`, as when collecting into a `HashMap`). -/
def lookupConfig (service_configs : List ServiceFeeConfig) (sid : Nat) : Option ServiceFeeConfig :=
  service_configs.reverse.find? fun c => c.serv_id == sid

/-- The accumulation loop of `calculate_profits` (`base_rate = 10000`;
every multiplication, division, addition and subtraction is checked). -/
def calculate_profits_go (service_configs : List ServiceFeeConfig) :
    List PaymentSettledByProxy → Nat → Nat → Nat → Except Err (Nat × Nat × Nat)
  | [], s, p, r => .ok (s, p, r)
  | receipt :: rest, s, p, r =>
    match lookupConfig service_configs receipt.serv_id with
    | none => .error (.serviceConfigNotFound receipt.serv_id)
    | some config =>
      match checked_mul receipt.amount config.system_fee_rate with
      | none => .error .multiplicationOverflow
      | some m1 =>
        match checked_div m1 10000 with
        | none => .error .divisionByZero
        | some system_fee =>
          match checked_add s system_fee with
          | none => .error .additionOverflow
          | some s =>
            match checked_mul receipt.amount config.proxy_fee_rate with
            | none => .error .multiplicationOverflow
            | some m2 =>
              match checked_div m2 10000 with
              | none => .error .divisionByZero
              | some proxy_fee =>
                match checked_add p proxy_fee with
                | none => .error .additionOverflow
                | some p =>
                  match checked_sub receipt.amount system_fee with
                  | none => .error .subtractionOverflow
                  | some d1 =>
                    match checked_sub d1 proxy_fee with
                    | none => .error .subtractionOverflow
                    | some receiver_fee =>
                      match checked_add r receiver_fee with
                      | none => .error .additionOverflow
                      | some r => calculate_profits_go service_configs rest s p r

/-- `calculate_profits`: the three totals start at `U256::default()`. -/
def calculate_profits (service_configs : List ServiceFeeConfig)
    (receipts : List PaymentSettledByProxy) : Except Err (Nat × Nat × Nat) :=
  calculate_profits_go service_configs receipts 0 0 0

/-- `validate_merkle_proof`: re-sort the receipts by content key, hash the
sorted receipt hashes, require equality with the proof's claimed leaf value,
then require the proof itself to verify. -/
def validate_merkle_proof (receipts : List PaymentSettledByProxy)
    (merkle_proof : MerkleProof) : Except Err Unit :=
  let sorted_receipts := List.insertionSort (fun a b => a.to_key ≤ b.to_key) receipts
  let hash_of_all_payments := keccak256 (sorted_receipts.map (·.hash))
  if merkle_proof.value_proof.value ≠ hash_of_all_payments then .error .invalidReceiptsHash
  else if merkle_proof.verify then .ok ()
  else .error .invalidMerkleProof

/-- The per-receipt signature loop of `validate_signatures`. -/
def checkSignatures (proxy : Nat) (pay_id_infos : List PayIdInfo) :
    List PaymentSettledByProxy → Except Err Unit
  | [] => .ok ()
  | receipt :: rest =>
    match (pay_id_infos.reverse.find? fun info => info.id == receipt.pay_id).map (·.sender) with
    | none => .error (.payIdNotFound receipt.pay_id)
    | some sender =>
      match receipt.get_sender_address with
      | .error e => .error e
      | .ok recovered_sender =>
        if recovered_sender ≠ sender then .error .invalidSenderSignature
        else
          match receipt.get_proxy_address with
          | .error e => .error e
          | .ok recovered_proxy =>
            if recovered_proxy ≠ proxy then .error .invalidProxySignature
            else checkSignatures proxy pay_id_infos rest

/-- `validate_signatures` (the `pay_id_senders` map keeps the last entry for
a duplicate id). -/
def validate_signatures (proxy : Nat) (pay_id_infos : List PayIdInfo)
    (receipts : List PaymentSettledByProxy) : Except Err Unit :=
  checkSignatures proxy pay_id_infos receipts

/-- `validate_prerequisites`: proxy check on every `PayIdInfo`, Merkle-proof
check, receiver check on every receipt, signature checks — in that order. -/
def validate_prerequisites (receiver proxy : Nat) (receipts : List PaymentSettledByProxy)
    (merkle_proof : MerkleProof) (pay_id_infos : List PayIdInfo) : Except Err Unit :=
  if ¬ pay_id_infos.all (fun info => info.proxy == proxy) then .error .invalidProxyInPayIdInfo
  else
    match validate_merkle_proof receipts merkle_proof with
    | .error e => .error e
    | .ok _ =>
      if ¬ receipts.all (fun receipt => receipt.receiver == receiver) then
        .error .invalidReceiverInReceipt
      else validate_signatures proxy pay_id_infos receipts

/-- `ReceiptsProfitCalculator::calculate`: validation, profit computation,
then the roots — `receipts_root` is taken from the proof, the other two are
recomputed by sorting and sequential hashing. -/
def calculate (receiver proxy : Nat) (receipts : List PaymentSettledByProxy)
    (merkle_proof : MerkleProof) (pay_id_infos : List PayIdInfo)
    (service_configs : List ServiceFeeConfig) : Except Err ProfitResult :=
  match validate_prerequisites receiver proxy receipts merkle_proof pay_id_infos with
  | .error e => .error e
  | .ok _ =>
    match calculate_profits service_configs receipts with
    | .error e => .error e
    | .ok (system_profit, proxy_profit, receiver_profit) =>
      .ok ⟨receiver, proxy, merkle_proof.root_hash, calculate_pay_ids_root pay_id_infos,
        calculate_serv_ids_root service_configs, system_profit, proxy_profit, receiver_profit⟩

end ReceiptsProfitCalculator

/-! ### `lib.rs` / `proxy_settler.rs` — settlement aggregation -/

structure ProxySettlementResult where
  vks_hash : Nat
  settlement_id : Nat
  proxy : Nat
  pay_ids_root : Nat
  serv_ids_root : Nat
  system_profits : Nat
  proxy_profits : Nat
  amount : Nat
deriving DecidableEq, Repr

namespace ProxySettlementResult

/-- `ProxySettlementResult::calculate_settlement_id`:
`H(H(proxy ‖ pay_ids_root ‖ serv_ids_root ‖ system_profits ‖ proxy_profits ‖
amount) ‖ receipts_root)`. -/
def calculate_settlement_id (r : ProxySettlementResult) (receipts_root : Nat) : Nat :=
  keccak256 [keccak256 [r.proxy, r.pay_ids_root, r.serv_ids_root,
    r.system_profits, r.proxy_profits, r.amount], receipts_root]

/-- `ProxySettlementResult::verify_settlement_id`. -/
def verify_settlement_id (r : ProxySettlementResult) (receipts_root : Nat) : Bool :=
  r.calculate_settlement_id receipts_root == r.settlement_id

/-- `ProxySettlementResult::build_settlement_id` — the source passes
`self.pay_ids_root` as the `receipts_root` argument of
`calculate_settlement_id`. -/
def build_settlement_id (r : ProxySettlementResult) : ProxySettlementResult :=
  { r with settlement_id := r.calculate_settlement_id r.pay_ids_root }

end ProxySettlementResult

namespace ProxySettlementAggregator

/-- The consistency loop of `pre_validate` (proxy, `pay_ids_root`,
`receipts_root` checked in that order for each result). -/
def checkConsistency (proxy pay_ids_root receipts_root : Nat) :
    List ProfitResult → Except Err Unit
  | [] => .ok ()
  | pr :: rest =>
    if pr.proxy ≠ proxy then .error .inconsistentProxy
    else if pr.pay_ids_root ≠ pay_ids_root then .error .inconsistentPayIdsRoot
    else if pr.receipts_root ≠ receipts_root then .error .inconsistentReceiptsRoot
    else checkConsistency proxy pay_ids_root receipts_root rest

/-- `ProxySettlementAggregator::pre_validate`. -/
def pre_validate (profit_results : List ProfitResult)
    (overpay_result : OverpayCheckResult) : Except Err Unit :=
  match profit_results with
  | [] => .error .emptyProfitResults
  | first :: _ =>
    match checkConsistency first.proxy first.pay_ids_root first.receipts_root profit_results with
    | .error e => .error e
    | .ok _ =>
      if overpay_result.pay_ids_root ≠ first.pay_ids_root then
        .error .overpayCheckPayIdsRootMismatch
      else .ok ()

/-- `calculate_aggregate_result`: sum the three profit components, set
`amount` to their grand total, and derive the settlement id via
`build_settlement_id`.  (Indexing `profit_results[0]` of an empty list is
unreachable behind `pre_validate`; the model returns the same error.) -/
def calculate_aggregate_result (profit_results : List ProfitResult) :
    Except Err ProxySettlementResult :=
  match profit_results with
  | [] => .error .emptyProfitResults
  | first :: _ =>
    let system_profits := (profit_results.map (·.system_profit)).sum
    let proxy_profits := (profit_results.map (·.proxy_profit)).sum
    let receiver_profits := (profit_results.map (·.receiver_profit)).sum
    let amount := system_profits + proxy_profits + receiver_profits
    .ok (ProxySettlementResult.build_settlement_id
      ⟨0, 0, first.proxy, first.pay_ids_root, first.serv_ids_root,
        system_profits, proxy_profits, amount⟩)

/-- `ProxySettlementAggregator::aggregate`. -/
def aggregate (profit_results : List ProfitResult)
    (overpay_result : OverpayCheckResult) : Except Err ProxySettlementResult :=
  match pre_validate profit_results overpay_result with
  | .error e => .error e
  | .ok _ => calculate_aggregate_result profit_results

end ProxySettlementAggregator

/-! ### `receiver_settler.rs` — `ReceiverSettler` -/

structure ReceiverSettler where
  receiver : Nat
  total_profit : Nat
deriving DecidableEq, Repr

namespace ReceiverSettler

/-- `ReceiverSettler::new`. -/
def new (receiver : Nat) : ReceiverSettler :=
  ⟨receiver, 0⟩

/-- `calculate_payments_root`: starting from `B256::ZERO`, chain-hash
`H(prev ‖ H(payment_bytes))` over the payments in the supplied order, where
`payment_bytes` packs the same seven fields as `PaymentSettledByProxy::hash`. -/
def calculate_payments_root (payments : List PaymentSettledByProxy) : Nat :=
  payments.foldl
    (fun current_hash payment =>
      keccak256_more current_hash
        (keccak256 [payment.pay_id, payment.serv_id, payment.amount, payment.receiver,
          sigField payment.sig_sender, boolField payment.settled, sigField payment.sig_proxy]))
    0

/-- `ReceiverSettler::process_proxy_settlement`: root check, receiver check,
then overflow-checked accumulation of `receiver_profit`. -/
def process_proxy_settlement (s : ReceiverSettler) (payments : List PaymentSettledByProxy)
    (profit_result : ProfitResult) : Except Err ReceiverSettler :=
  if calculate_payments_root payments ≠ profit_result.receipts_root then
    .error .paymentsRootMismatch
  else if s.receiver ≠ profit_result.receiver then .error .receiverMismatch
  else
    match checked_add s.total_profit profit_result.receiver_profit with
    | none => .error .profitOverflow
    | some total => .ok ⟨s.receiver, total⟩

/-- `ReceiverSettler::total_profit`. -/
def get_total_profit (s : ReceiverSettler) : Nat :=
  s.total_profit

end ReceiverSettler

/-! Closed forms for the state of a `SegmentVC` after a sequence of
`Built`-mode insertions. -/

theorem keccak256_ne_zero' (l : List Nat) : keccak256 l ≠ 0 :=
  Nat.succ_ne_zero _

/-- The segment holding one chunk of inserted values, with coherent chunk
hashes and root. -/
def mkSeg (c : List Nat) : Segment :=
  ⟨c, c.map fun v => keccak256 [v], keccak256 (c.map fun v => keccak256 [v]), 0⟩

/-- The segment list after inserting the value sequence `vs`. -/
def segsOf (vs : List Nat) : List Segment :=
  if vs = [] then [Segment.empty] else (chunks16 vs).map mkSeg

/-- The key-index map after inserting `kvs` (most recent first, slots are
1-based). -/
def indicesOfAux : Nat → List (Nat × Nat) → List (Nat × Nat)
  | _, [] => []
  | start, (k, _) :: t => indicesOfAux (start + 1) t ++ [(k, start + 1)]

def indicesOf (kvs : List (Nat × Nat)) : List (Nat × Nat) :=
  indicesOfAux 0 kvs

/-- The stored tree levels after inserting the value sequence `vs`. -/
def levelsOf (vs : List Nat) : List (List Nat) :=
  buildLevels ((segsOf vs).map Segment.root)

/-- Shape of the reachable `Built`-mode states: all fields other than the
root history are determined by the inserted key-value sequence. -/
def Shaped (kvs : List (Nat × Nat)) (vc : SegmentVC) : Prop :=
  vc.segments = segsOf (kvs.map Prod.snd) ∧
  vc.total_size = kvs.length ∧
  vc.indices = indicesOf kvs ∧
  vc.merkle_nodes = (if kvs.map Prod.snd = [] then [] else levelsOf (kvs.map Prod.snd)) ∧
  vc.root_hash = (if kvs.map Prod.snd = [] then 0 else rootOf (levelsOf (kvs.map Prod.snd))) ∧
  vc.building_mode = .built

/-! Utility lemmas about `chunksAux` / `chunks16`. -/

theorem chunksAux_congr : ∀ (f₁ f₂ : Nat) (l : List Nat), l.length ≤ f₁ → l.length ≤ f₂ →
    chunksAux f₁ l = chunksAux f₂ l := by
  intro f₁
  induction f₁ with
  | zero =>
    intro f₂ l h₁ _
    have : l = [] := List.eq_nil_of_length_eq_zero (by omega)
    subst this
    cases f₂ <;> rfl
  | succ f ih =>
    intro f₂ l h₁ h₂
    cases l with
    | nil => cases f₂ <;> rfl
    | cons a t =>
      cases f₂ with
      | zero => simp at h₂
      | succ g =>
        simp only [chunksAux]
        congr 1
        apply ih
        · simp only [List.length_drop, List.length_cons, SEGMENT_SIZE] at *; omega
        · simp only [List.length_drop, List.length_cons, SEGMENT_SIZE] at *; omega

theorem chunks16_cons (l : List Nat) (hl : l ≠ []) :
    chunks16 l = l.take SEGMENT_SIZE :: chunks16 (l.drop SEGMENT_SIZE) := by
  cases l with
  | nil => exact absurd rfl hl
  | cons a t =>
    show chunksAux (t.length + 1) (a :: t) = _
    simp only [chunksAux]
    congr 1
    apply chunksAux_congr
    · simp [List.length_drop, SEGMENT_SIZE]
    · simp [List.length_drop, SEGMENT_SIZE]

theorem chunks16_nil : chunks16 [] = [] := rfl

theorem chunks16_small (l : List Nat) (hl : l ≠ []) (hlen : l.length ≤ SEGMENT_SIZE) :
    chunks16 l = [l] := by
  rw [chunks16_cons l hl, List.take_of_length_le hlen, List.drop_eq_nil_of_le hlen, chunks16_nil]

theorem chunks16_length (l : List Nat) : (chunks16 l).length = (l.length + 15) / 16 := by
  have H : ∀ n (l : List Nat), l.length = n → (chunks16 l).length = (l.length + 15) / 16 := by
    intro n
    induction n using Nat.strong_induction_on with
    | _ n ih =>
      intro l hn
      cases l with
      | nil => simp [chunks16_nil]
      | cons a t =>
        rw [chunks16_cons _ (by simp)]
        simp only [List.length_cons] at hn
        by_cases hle : t.length + 1 ≤ 16
        · rw [List.drop_eq_nil_of_le (by simpa [SEGMENT_SIZE] using hle), chunks16_nil]
          simp only [List.length_cons, List.length_nil]
          omega
        · have hdl : ((a :: t).drop SEGMENT_SIZE).length = t.length + 1 - 16 := by
            simp [List.length_drop, SEGMENT_SIZE]
        
          rw [List.length_cons, ih ((a :: t).drop SEGMENT_SIZE).length (by simp [SEGMENT_SIZE]; omega) _ rfl, hdl]
          simp only [List.length_cons]
          omega
  exact H l.length l rfl

theorem chunks16_getElem (l : List Nat) : ∀ j, j < (chunks16 l).length →
    (chunks16 l)[j]? = some ((l.drop (16 * j)).take 16) := by
  have H : ∀ n (l : List Nat), l.length = n → ∀ j, j < (chunks16 l).length →
      (chunks16 l)[j]? = some ((l.drop (16 * j)).take 16) := by
    intro n
    induction n using Nat.strong_induction_on with
    | _ n ih =>
      intro l hn j hj
      cases l with
      | nil => simp [chunks16_nil] at hj
      | cons a t =>
        rw [chunks16_cons _ (by simp)] at hj ⊢
        cases j with
        | zero => simp [SEGMENT_SIZE]
        | succ j =>
          simp only [List.getElem?_cons_succ, List.length_cons] at hj ⊢
          simp only [List.length_cons] at hn
          have hlen : ((a :: t).drop SEGMENT_SIZE).length < n := by
            simp only [List.length_drop, List.length_cons, SEGMENT_SIZE]
            omega
          rw [ih _ hlen _ rfl j (by omega)]
          rw [List.drop_drop]
          congr 3
          simp only [SEGMENT_SIZE]
          ring
  exact H l.length l rfl

theorem chunks16_getD_elem (l : List Nat) (i : Nat) (hi : i < l.length) :
    ((chunks16 l).getD (i / 16) []).getD (i % 16) 0 = l.getD i 0 := by
  have hj : i / 16 < (chunks16 l).length := by
    rw [chunks16_length]; omega
  rw [List.getD_eq_getElem?_getD (chunks16 l) (i / 16) [], chunks16_getElem l _ hj]
  simp only [Option.getD_some]
  rw [List.getD_eq_getElem?_getD, List.getElem?_take_of_lt (by omega), List.getElem?_drop]
  rw [List.getD_eq_getElem?_getD]
  congr 2
  omega

theorem chunks16_getD_length (l : List Nat) (j : Nat) (hj : j < (chunks16 l).length) :
    ((chunks16 l).getD j []).length = min 16 (l.length - 16 * j) := by
  rw [List.getD_eq_getElem?_getD, chunks16_getElem l j hj]
  simp [List.length_take, List.length_drop]

theorem chunks16_ne_nil (l : List Nat) (hl : l ≠ []) : chunks16 l ≠ [] := by
  rw [chunks16_cons l hl]
  simp

theorem chunks16_snoc_full (l : List Nat) (x : Nat) (h : l.length % 16 = 0) :
    chunks16 (l ++ [x]) = chunks16 l ++ [[x]] := by
  have H : ∀ n (l : List Nat), l.length = n → l.length % 16 = 0 →
      chunks16 (l ++ [x]) = chunks16 l ++ [[x]] := by
    intro n
    induction n using Nat.strong_induction_on with
    | _ n ih =>
      intro l hn h
      by_cases hnil : l = []
      · subst hnil
        simp only [List.nil_append, chunks16_nil]
        rw [chunks16_small [x] (by simp) (by simp [SEGMENT_SIZE])]
      · have h16 : 16 ≤ l.length := by
          rcases Nat.eq_zero_or_pos l.length with h0 | hpos
          · exact absurd (List.eq_nil_of_length_eq_zero h0) hnil
          · omega
        rw [chunks16_cons (l ++ [x]) (by simp), chunks16_cons l hnil,
          List.take_append_of_le_length (by simpa [SEGMENT_SIZE] using h16),
          List.drop_append_of_le_length (by simpa [SEGMENT_SIZE] using h16)]
        rw [ih (l.drop SEGMENT_SIZE).length (by simp [SEGMENT_SIZE]; omega) _ rfl
          (by simp [SEGMENT_SIZE]; omega)]
        simp
  exact H l.length l rfl h

theorem chunks16_snoc_partial (l : List Nat) (x : Nat) (h : l.length % 16 ≠ 0) :
    chunks16 (l ++ [x]) =
      (chunks16 l).set (l.length / 16) (((chunks16 l).getD (l.length / 16) []) ++ [x]) := by
  have H : ∀ n (l : List Nat), l.length = n → l.length % 16 ≠ 0 →
      chunks16 (l ++ [x]) =
        (chunks16 l).set (l.length / 16) (((chunks16 l).getD (l.length / 16) []) ++ [x]) := by
    intro n
    induction n using Nat.strong_induction_on with
    | _ n ih =>
      intro l hn h
      have hnil : l ≠ [] := by intro hl; subst hl; simp at h
      by_cases hsmall : l.length < 16
      · have hd : l.length / 16 = 0 := by omega
        rw [chunks16_small l hnil (by simp only [SEGMENT_SIZE]; omega), hd,
          chunks16_small (l ++ [x]) (by simp) (by simp only [List.length_append, List.length_cons, List.length_nil, SEGMENT_SIZE]; omega)]
        simp
      · have h16 : 16 ≤ l.length := by omega
        rw [chunks16_cons (l ++ [x]) (by simp), chunks16_cons l hnil,
          List.take_append_of_le_length (by simpa [SEGMENT_SIZE] using h16),
          List.drop_append_of_le_length (by simpa [SEGMENT_SIZE] using h16)]
        rw [ih (l.drop SEGMENT_SIZE).length (by simp [SEGMENT_SIZE]; omega) _ rfl
          (by simp [SEGMENT_SIZE]; omega)]
        have hdiv : l.length / 16 = (l.drop SEGMENT_SIZE).length / 16 + 1 := by
          simp only [List.length_drop, SEGMENT_SIZE]
          omega
        rw [hdiv]
        rfl
  exact H l.length l rfl h

theorem buildLevelsAux_congr : ∀ (f₁ f₂ : Nat) (nodes : List Nat), nodes.length ≤ f₁ →
    nodes.length ≤ f₂ → buildLevelsAux f₁ nodes = buildLevelsAux f₂ nodes := by
  intro f₁
  induction f₁ with
  | zero =>
    intro f₂ nodes h₁ _
    have : nodes = [] := List.eq_nil_of_length_eq_zero (by omega)
    subst this
    cases f₂ with
    | zero => rfl
    | succ g => simp [buildLevelsAux]
  | succ f ih =>
    intro f₂ nodes h₁ h₂
    cases f₂ with
    | zero =>
      have : nodes = [] := List.eq_nil_of_length_eq_zero (by omega)
      subst this
      simp [buildLevelsAux]
    | succ g =>
      simp only [buildLevelsAux]
      by_cases hlen : nodes.length ≤ 1
      · rw [if_pos hlen, if_pos hlen]
      · rw [if_neg hlen, if_neg hlen]
        congr 1
        apply ih
        · rw [List.length_map, chunks16_length]; omega
        · rw [List.length_map, chunks16_length]; omega

theorem buildLevels_single (nodes : List Nat) (h : nodes.length ≤ 1) :
    buildLevels nodes = [nodes] := by
  cases nodes with
  | nil => rfl
  | cons a t =>
    have : t = [] := by
      simp only [List.length_cons] at h
      exact List.eq_nil_of_length_eq_zero (by omega)
    subst this
    rfl

theorem buildLevels_step (nodes : List Nat) (h : 2 ≤ nodes.length) :
    buildLevels nodes = nodes :: buildLevels ((chunks16 nodes).map keccak256) := by
  rw [buildLevels]
  cases hn : nodes.length with
  | zero => omega
  | succ m =>
    simp only [buildLevelsAux, hn]
    rw [if_neg (by omega)]
    congr 1
    apply buildLevelsAux_congr
    · rw [List.length_map, chunks16_length]; omega
    · rw [List.length_map, chunks16_length]

theorem buildLevels_ne_nil (nodes : List Nat) : buildLevels nodes ≠ [] := by
  rw [buildLevels]
  cases hn : nodes.length with
  | zero => simp [buildLevelsAux]
  | succ m =>
    simp only [buildLevelsAux]
    split <;> simp

theorem rootOf_cons (a : List Nat) (ls : List (List Nat)) (h : ls ≠ []) :
    rootOf (a :: ls) = rootOf ls := by
  cases ls with
  | nil => exact absurd rfl h
  | cons b t => simp [rootOf, List.getLastD_cons]

theorem rootOf_buildLevels_ne_zero (nodes : List Nat) (hne : nodes ≠ [])
    (hnz : ∀ x ∈ nodes, x ≠ 0) : rootOf (buildLevels nodes) ≠ 0 := by
  have H : ∀ n (nodes : List Nat), nodes.length = n → nodes ≠ [] →
      (∀ x ∈ nodes, x ≠ 0) → rootOf (buildLevels nodes) ≠ 0 := by
    intro n
    induction n using Nat.strong_induction_on with
    | _ n ih =>
      intro nodes hn hne hnz
      by_cases hlen : nodes.length ≤ 1
      · rw [buildLevels_single nodes hlen]
        cases nodes with
        | nil => exact absurd rfl hne
        | cons a t => exact hnz a (by simp)
      · rw [buildLevels_step nodes (by omega),
          rootOf_cons _ _ (buildLevels_ne_nil _)]
        have hcl : ((chunks16 nodes).map keccak256).length < n := by
          rw [List.length_map, chunks16_length]; omega
        apply ih _ (by omega) _ rfl
        · have : (chunks16 nodes).length ≠ 0 := by
            rw [chunks16_length]; omega
          simpa [List.map_eq_nil_iff] using fun hc => this (by rw [hc]; rfl)
        · intro x hx
          obtain ⟨c, _, rfl⟩ := List.mem_map.mp hx
          exact keccak256_ne_zero' c
  exact H nodes.length nodes rfl hne hnz

theorem padSet_length (l : List Nat) (i v : Nat) :
    (padSet l i v).length = max l.length (i + 1) := by
  simp only [padSet, List.length_set, List.length_append, List.length_replicate]
  omega

theorem padSet_at_length (l : List Nat) (v : Nat) : padSet l l.length v = l ++ [v] := by
  simp only [padSet]
  have : l.length + 1 - l.length = 1 := by omega
  rw [this]
  rw [List.set_append_right _ _ (le_refl _)]
  simp

theorem padSet_idem (l : List Nat) (i v : Nat) : padSet (padSet l i v) i v = padSet l i v := by
  have hlen : i + 1 - (padSet l i v).length = 0 := by rw [padSet_length]; omega
  conv_lhs => rw [padSet, hlen]
  simp only [List.replicate_zero, List.append_nil, padSet, List.set_set]

theorem indicesOfAux_append (l : List (Nat × Nat)) (x : Nat × Nat) : ∀ start,
    indicesOfAux start (l ++ [x]) = (x.1, start + l.length + 1) :: indicesOfAux start l := by
  induction l with
  | nil => intro start; simp [indicesOfAux]
  | cons p t ih =>
    intro start
    cases p with
    | mk k v =>
      show indicesOfAux (start + 1) (t ++ [x]) ++ [(k, start + 1)] = _
      rw [ih (start + 1)]
      have harith : start + 1 + t.length + 1 = start + (t.length + 1) + 1 := by omega
      rw [harith]
      simp [indicesOfAux]

theorem indicesOf_append (kvs : List (Nat × Nat)) (x : Nat × Nat) :
    indicesOf (kvs ++ [x]) = (x.1, kvs.length + 1) :: indicesOf kvs := by
  rw [indicesOf, indicesOfAux_append]
  simp [indicesOf]

theorem indicesOf_keys (kvs : List (Nat × Nat)) :
    (indicesOf kvs).map Prod.fst = (kvs.map Prod.fst).reverse := by
  induction kvs using List.reverseRecOn with
  | nil => rfl
  | append_singleton l x ih => simp [indicesOf_append, ih]

theorem lookup_eq_none_of_notMem (l : List (Nat × Nat)) (k : Nat)
    (h : k ∉ l.map Prod.fst) : l.lookup k = none := by
  induction l with
  | nil => rfl
  | cons p t ih =>
    cases p with
    | mk a b =>
      simp only [List.map_cons, List.mem_cons, not_or] at h
      have hne : (k == a) = false := by simpa using h.1
      simp [List.lookup, hne, ih h.2]

theorem lookup_indicesOf_none (kvs : List (Nat × Nat)) (k : Nat)
    (hk : k ∉ kvs.map Prod.fst) : (indicesOf kvs).lookup k = none := by
  apply lookup_eq_none_of_notMem
  rw [indicesOf_keys]
  simpa using hk

theorem lookup_indicesOf_get (kvs : List (Nat × Nat)) (hnd : (kvs.map Prod.fst).Nodup) :
    ∀ i (hi : i < kvs.length), (indicesOf kvs).lookup (kvs.get ⟨i, hi⟩).1 = some (i + 1) := by
  induction kvs using List.reverseRecOn with
  | nil => intro i hi; simp at hi
  | append_singleton l x ih =>
    intro i hi
    rw [indicesOf_append]
    simp only [List.map_append, List.map_cons, List.map_nil] at hnd
    have hnd' : (l.map Prod.fst).Nodup := (List.nodup_append.mp hnd).1
    have hxnot : x.1 ∉ l.map Prod.fst := by
      have := (List.nodup_append.mp hnd).2.2
      intro hc
      exact this hc (by simp)
    by_cases hlast : i = l.length
    · subst hlast
      have hget : (l ++ [x]).get ⟨l.length, hi⟩ = x := by
        simp [List.get_eq_getElem, List.getElem_append_right (le_refl l.length)]
      rw [hget]
      simp [List.lookup]
    · have hlt : i < l.length := by
        simp only [List.length_append, List.length_cons, List.length_nil] at hi
        omega
      have hget : (l ++ [x]).get ⟨i, hi⟩ = l.get ⟨i, hlt⟩ := by
        simp [List.get_eq_getElem, List.getElem_append_left hlt]
      rw [hget]
      have hmem : (l.get ⟨i, hlt⟩).1 ∈ l.map Prod.fst :=
        List.mem_map.mpr ⟨l.get ⟨i, hlt⟩, List.get_mem _ _ _, rfl⟩
      have hne : ((l.get ⟨i, hlt⟩).1 == x.1) = false := by
        simp only [beq_eq_false_iff_ne, ne_eq]
        intro hc
        rw [hc] at hmem
        exact hxnot hmem
      simp only [List.lookup, hne]
      exact ih hnd' i hlt

theorem reconstructAt_eraseIdx (l : List Nat) (i : Nat) (hi : i < l.length) :
    reconstructAt (l.eraseIdx i) i (l.getD i 0) = l := by
  have hgd : l.getD i 0 = l[i] := by
    rw [List.getD_eq_getElem?_getD, List.getElem?_eq_getElem hi]
    rfl
  rw [reconstructAt, List.eraseIdx_eq_take_drop_succ]
  have htake : (l.take i ++ l.drop (i + 1)).take i = l.take i := by
    rw [List.take_append_of_le_length (by simp [List.length_take]; omega)]
    simp [List.take_take]
  have hdrop : (l.take i ++ l.drop (i + 1)).drop i = l.drop (i + 1) := by
    rw [List.drop_append_of_le_length (by simp [List.length_take]; omega)]
    simp [List.drop_eq_nil_of_le, List.length_take, Nat.min_le_left]
  rw [htake, hdrop, hgd]
  rw [show l[i] :: l.drop (i + 1) = [l[i]] ++ l.drop (i + 1) from rfl]
  rw [← List.append_assoc, List.take_concat_get' l i hi, List.take_append_drop]

theorem getD_map_mkSeg (L : List (List Nat)) (j : Nat) (hj : j < L.length) :
    (L.map mkSeg).getD j Segment.empty = mkSeg (L.getD j []) := by
  rw [List.getD_eq_getElem?_getD, List.getElem?_map, List.getD_eq_getElem?_getD,
    List.getElem?_eq_getElem hj]
  rfl

theorem segsOf_insert_step (vs : List Nat) (v : Nat) :
    ((segsOf vs ++ List.replicate (vs.length / 16 + 1 - (segsOf vs).length) Segment.empty).set
        (vs.length / 16)
        (mkSeg (padSet ((segsOf vs ++ List.replicate (vs.length / 16 + 1 - (segsOf vs).length)
          Segment.empty).getD (vs.length / 16) Segment.empty).values (vs.length % 16) v)))
      = segsOf (vs ++ [v]) := by
  by_cases hnil : vs = []
  · subst hnil
    rfl
  · have hlen : (segsOf vs).length = (vs.length + 15) / 16 := by
      rw [segsOf, if_neg hnil, List.length_map, chunks16_length]
    have hn1 : 1 ≤ vs.length := by
      cases vs with
      | nil => exact absurd rfl hnil
      | cons a t => simp
    by_cases hmod : vs.length % 16 = 0
    · -- a fresh segment is appended and receives the single value
      have h16 : 16 ≤ vs.length := by omega
      have hchunks : (vs.length + 15) / 16 = vs.length / 16 := by omega
      have hrep : vs.length / 16 + 1 - (segsOf vs).length = 1 := by
        rw [hlen]; omega
      rw [hrep]
      have hsegs : segsOf vs = (chunks16 vs).map mkSeg := by rw [segsOf, if_neg hnil]
      have hat : ((segsOf vs ++ List.replicate 1 Segment.empty).getD (vs.length / 16)
          Segment.empty) = Segment.empty := by
        rw [List.getD_eq_getElem?_getD, List.getElem?_append_right (by rw [hlen]; omega)]
        rw [hlen, hchunks]
        simp
      rw [hat, hmod]
      show (segsOf vs ++ [Segment.empty]).set (vs.length / 16) (mkSeg (padSet [] 0 v)) = _
      have hpad : padSet [] 0 v = [v] := rfl
      rw [hpad]
      rw [List.set_append_right _ _ (by rw [hlen, hchunks])]
      rw [hlen, hchunks, Nat.sub_self]
      have hunf : segsOf (vs ++ [v]) = (chunks16 (vs ++ [v])).map mkSeg := by
        rw [segsOf, if_neg (by simp)]
      rw [hunf, chunks16_snoc_full vs v hmod]
      simp [hsegs]
    · -- the value lands in the existing last segment
      have hchunks : (vs.length + 15) / 16 = vs.length / 16 + 1 := by omega
      have hrep : vs.length / 16 + 1 - (segsOf vs).length = 0 := by
        rw [hlen]; omega
      rw [hrep]
      simp only [List.replicate_zero, List.append_nil]
      have hsegs : segsOf vs = (chunks16 vs).map mkSeg := by rw [segsOf, if_neg hnil]
      have hjlt : vs.length / 16 < (chunks16 vs).length := by
        rw [chunks16_length]; omega
      rw [hsegs, getD_map_mkSeg _ _ hjlt]
      have hclen : ((chunks16 vs).getD (vs.length / 16) []).length = vs.length % 16 := by
        rw [chunks16_getD_length _ _ hjlt]
        omega
      show ((chunks16 vs).map mkSeg).set (vs.length / 16)
          (mkSeg (padSet ((chunks16 vs).getD (vs.length / 16) []) (vs.length % 16) v)) = _
      rw [← hclen, padSet_at_length]
      rw [List.set_map, ← chunks16_snoc_partial vs v hmod]
      rw [segsOf, if_neg (by simp)]

theorem segsOf_getD_size (vs : List Nat) (m j : Nat) :
    ((segsOf vs ++ List.replicate m Segment.empty).getD j Segment.empty).size = 0 := by
  rw [List.getD_eq_getElem?_getD]
  cases hq : (segsOf vs ++ List.replicate m Segment.empty)[j]? with
  | none => rfl
  | some s =>
    have hmem : s ∈ segsOf vs ++ List.replicate m Segment.empty := by
      exact List.getElem?_mem hq
    simp only [Option.getD_some]
    rcases List.mem_append.mp hmem with hm | hm
    · rw [segsOf] at hm
      split at hm
      · simp at hm; rw [hm]; rfl
      · obtain ⟨c, _, rfl⟩ := List.mem_map.mp hm
        rfl
    · rw [List.eq_of_mem_replicate hm]
      rfl

theorem add_hash_ok (s : CircularHashStore) (hash : Nat) (hne : hash ≠ 0) :
    ∃ st i, s.add_hash hash = .ok (st, i) := by
  rw [CircularHashStore.add_hash, if_neg hne]
  exact ⟨_, _, rfl⟩

theorem segsOf_map_root_ne_nil (vs : List Nat) :
    (segsOf vs).map Segment.root ≠ [] := by
  rw [segsOf]
  split
  · simp
  · simp only [ne_eq, List.map_eq_nil_iff]
    next hnil => exact chunks16_ne_nil vs hnil

theorem segsOf_map_root_ne_zero (vs : List Nat) (hnil : vs ≠ []) :
    ∀ x ∈ (segsOf vs).map Segment.root, x ≠ 0 := by
  intro x hx
  rw [segsOf, if_neg hnil] at hx
  simp only [List.map_map, List.mem_map] at hx
  obtain ⟨c, _, rfl⟩ := hx
  exact keccak256_ne_zero' _

theorem rootOf_levelsOf_ne_zero (vs : List Nat) (hnil : vs ≠ []) :
    rootOf (levelsOf vs) ≠ 0 := by
  apply rootOf_buildLevels_ne_zero
  · exact segsOf_map_root_ne_nil vs
  · exact segsOf_map_root_ne_zero vs hnil

theorem segsOf_insert_step_sized (vs : List Nat) (v n : Nat) (hn : n = vs.length) :
    ((segsOf vs ++ List.replicate (n / 16 + 1 - (segsOf vs).length) Segment.empty).set (n / 16)
      ⟨padSet ((segsOf vs ++ List.replicate (n / 16 + 1 - (segsOf vs).length)
            Segment.empty).getD (n / 16) Segment.empty).values (n % 16) v,
        (padSet ((segsOf vs ++ List.replicate (n / 16 + 1 - (segsOf vs).length)
            Segment.empty).getD (n / 16) Segment.empty).values (n % 16) v).map
          fun x => keccak256 [x],
        keccak256 ((padSet ((segsOf vs ++ List.replicate (n / 16 + 1 - (segsOf vs).length)
            Segment.empty).getD (n / 16) Segment.empty).values (n % 16) v).map
          fun x => keccak256 [x]),
        ((segsOf vs ++ List.replicate (n / 16 + 1 - (segsOf vs).length)
            Segment.empty).getD (n / 16) Segment.empty).size⟩)
      = segsOf (vs ++ [v]) := by
  subst hn
  rw [segsOf_getD_size]
  exact segsOf_insert_step vs v

theorem insert_shaped (kvs : List (Nat × Nat)) (vc : SegmentVC) (hsh : Shaped kvs vc)
    (k v : Nat) (hk : k ∉ kvs.map Prod.fst) :
    ∃ vc', vc.insert k v = .ok (vc', vc'.root_hash) ∧ Shaped (kvs ++ [(k, v)]) vc' := by
  obtain ⟨hsegs, htot, hidx, hmerk, hroot, hmode⟩ := hsh
  have hlook : vc.indices.lookup k = none := by
    rw [hidx]; exact lookup_indicesOf_none kvs k hk
  cases vc with
  | mk segs tot rh mn idx hist mode =>
    simp only at hsegs htot hidx hmerk hroot hmode hlook
    subst hsegs htot hidx hmerk hroot hmode
    rw [SegmentVC.insert]
    simp only [hlook, Option.isSome_none, Bool.false_eq_true, if_false]
    simp only [SEGMENT_SIZE]
    rw [SegmentVC.update_segment]
    dsimp only
    have hGlen : kvs.length / 16 <
        ((segsOf (List.map Prod.snd kvs) ++
          List.replicate (kvs.length / 16 + 1 - (segsOf (List.map Prod.snd kvs)).length)
            Segment.empty)).length := by
      simp only [List.length_append, List.length_replicate]
      omega
    have hset : ∀ (x : Segment),
        ((segsOf (List.map Prod.snd kvs) ++
          List.replicate (kvs.length / 16 + 1 - (segsOf (List.map Prod.snd kvs)).length)
            Segment.empty).set (kvs.length / 16) x).getD (kvs.length / 16) Segment.empty = x := by
      intro x
      rw [List.getD_eq_getElem?_getD, List.getElem?_set_eq (by simpa using hGlen)]
      rfl
    rw [hset]
    dsimp only
    rw [List.set_set, padSet_idem]
    rw [segsOf_insert_step_sized (List.map Prod.snd kvs) v kvs.length
      (List.length_map _ _).symm]
    rw [SegmentVC.update_merkle_tree]
    dsimp only
    obtain ⟨st, pos, haddh⟩ := add_hash_ok hist
      (rootOf (buildLevels (List.map (fun x => x.root) (segsOf (List.map Prod.snd kvs ++ [v])))))
      (by
        have hne : (List.map Prod.snd kvs ++ [v]) ≠ [] := by simp
        have h2 := rootOf_levelsOf_ne_zero (List.map Prod.snd kvs ++ [v]) hne
        simpa [levelsOf] using h2)
    rw [haddh]
    refine ⟨_, rfl, ?_, by simp, ?_, ?_, ?_, rfl⟩
    · show segsOf (List.map Prod.snd kvs ++ [v]) = segsOf (List.map Prod.snd (kvs ++ [(k, v)]))
      rw [List.map_append]
      rfl
    · show (k, kvs.length + 1) :: indicesOf kvs = indicesOf (kvs ++ [(k, v)])
      rw [indicesOf_append]
    · show buildLevels (List.map (fun x => x.root) (segsOf (List.map Prod.snd kvs ++ [v]))) = _
      rw [if_neg (by simp)]
      rw [levelsOf, List.map_append]
      rfl
    · show rootOf (buildLevels (List.map (fun x => x.root)
        (segsOf (List.map Prod.snd kvs ++ [v])))) = _
      rw [if_neg (by simp)]
      rw [levelsOf, List.map_append]
      rfl

theorem insertList_append (l₁ l₂ : List (Nat × Nat)) : ∀ vc : SegmentVC,
    vc.insertList (l₁ ++ l₂) =
      match vc.insertList l₁ with
      | .error e => .error e
      | .ok vc => vc.insertList l₂ := by
  induction l₁ with
  | nil => intro vc; rfl
  | cons p t ih =>
    intro vc
    cases p with
    | mk a b =>
      show (match vc.insert a b with
        | Except.error e => Except.error e
        | Except.ok (vc, _) => vc.insertList (t ++ l₂)) =
        match (match vc.insert a b with
          | Except.error e => Except.error e
          | Except.ok (vc, _) => vc.insertList t) with
        | Except.error e => Except.error e
        | Except.ok vc => vc.insertList l₂
      cases vc.insert a b with
      | error e => rfl
      | ok q => exact ih q.1

theorem insertList_shaped (cap : Nat) (kvs : List (Nat × Nat))
    (hnd : (kvs.map Prod.fst).Nodup) :
    ∃ vc, (SegmentVC.new cap).insertList kvs = .ok vc ∧ Shaped kvs vc := by
  induction kvs using List.reverseRecOn with
  | nil =>
    refine ⟨SegmentVC.new cap, rfl, ?_⟩
    refine ⟨rfl, rfl, rfl, by simp [SegmentVC.new], by simp [SegmentVC.new], rfl⟩
  | append_singleton l x ih =>
    rw [List.map_append] at hnd
    have hl : (l.map Prod.fst).Nodup := (List.nodup_append.mp hnd).1
    have hx : x.1 ∉ l.map Prod.fst := by
      have := (List.nodup_append.mp hnd).2.2
      intro hc
      exact this hc (by simp)
    obtain ⟨vc, hins, hsh⟩ := ih hl
    obtain ⟨vc', hstep, hsh'⟩ := insert_shaped l vc hsh x.1 x.2 hx
    refine ⟨vc', ?_, hsh'⟩
    rw [insertList_append, hins]
    cases x with
    | mk a b =>
      show (match vc.insert a b with
        | Except.error e => Except.error e
        | Except.ok (vc, _) => vc.insertList []) = Except.ok vc'
      rw [hstep]
      rfl

theorem getD_zero_eq_headD (l : List Nat) : l.getD 0 0 = l.headD 0 := by
  cases l <;> rfl

theorem getD_map_keccak (L : List (List Nat)) (j : Nat) (hj : j < L.length) :
    (L.map keccak256).getD j 0 = keccak256 (L.getD j []) := by
  rw [List.getD_eq_getElem?_getD, List.getElem?_map, List.getD_eq_getElem?_getD,
    List.getElem?_eq_getElem hj]
  rfl

theorem fold_levels (nodes : List Nat) : ∀ c lvl, c < nodes.length →
    List.foldl (fun cur lp => keccak256 (reconstructAt lp.siblings lp.node_index cur))
      (nodes.getD c 0) (levelProofsFrom (buildLevels nodes).dropLast c lvl)
      = rootOf (buildLevels nodes) := by
  have H : ∀ n (nodes : List Nat), nodes.length = n → ∀ c lvl, c < nodes.length →
      List.foldl (fun cur lp => keccak256 (reconstructAt lp.siblings lp.node_index cur))
        (nodes.getD c 0) (levelProofsFrom (buildLevels nodes).dropLast c lvl)
        = rootOf (buildLevels nodes) := by
    intro n
    induction n using Nat.strong_induction_on with
    | _ n ih =>
      intro nodes hn c lvl hc
      by_cases hlen : nodes.length ≤ 1
      · rw [buildLevels_single nodes hlen]
        have hc0 : c = 0 := by omega
        subst hc0
        show nodes.getD 0 0 = rootOf [nodes]
        rw [getD_zero_eq_headD]
        rfl
      · rw [buildLevels_step nodes (by omega)]
        rw [List.dropLast_cons_of_ne_nil (buildLevels_ne_nil _)]
        rw [rootOf_cons _ _ (buildLevels_ne_nil _)]
        show List.foldl _ (keccak256 (reconstructAt (mkLevelProof nodes c lvl).siblings
          (mkLevelProof nodes c lvl).node_index (nodes.getD c 0))) _ = _
        have hnum : c / 16 < (chunks16 nodes).length := by
          rw [chunks16_length]; omega
        have hgroup : (nodes.drop (c / SEGMENT_SIZE * SEGMENT_SIZE)).take
            (min (c / SEGMENT_SIZE * SEGMENT_SIZE + SEGMENT_SIZE) nodes.length -
              c / SEGMENT_SIZE * SEGMENT_SIZE) = (chunks16 nodes).getD (c / 16) [] := by
          rw [List.getD_eq_getElem?_getD, chunks16_getElem nodes _ hnum]
          simp only [Option.getD_some, SEGMENT_SIZE]
          rw [Nat.mul_comm 16 (c / 16)]
          rw [List.take_eq_take]
          simp only [List.length_drop]
          omega
        have hclen : ((chunks16 nodes).getD (c / 16) []).length = min 16 (nodes.length - 16 * (c / 16)) :=
          chunks16_getD_length nodes _ hnum
        have hmod : c % 16 < ((chunks16 nodes).getD (c / 16) []).length := by
          rw [hclen]; omega
        have hcelem : ((chunks16 nodes).getD (c / 16) []).getD (c % 16) 0 = nodes.getD c 0 := by
          rw [List.getD_eq_getElem?_getD, List.getD_eq_getElem?_getD (chunks16 nodes) _ []] at *
          rw [chunks16_getElem nodes _ hnum]
          simp only [Option.getD_some]
          rw [List.getD_eq_getElem?_getD, List.getElem?_take_of_lt (by omega), List.getElem?_drop]
          congr 2
          omega
        have hstep : reconstructAt ((mkLevelProof nodes c lvl).siblings)
            ((mkLevelProof nodes c lvl).node_index) (nodes.getD c 0)
            = (chunks16 nodes).getD (c / 16) [] := by
          show reconstructAt ((((nodes.drop _).take _).eraseIdx (c % SEGMENT_SIZE)))
            (c % SEGMENT_SIZE) (nodes.getD c 0) = _
          rw [show (c % SEGMENT_SIZE) = c % 16 from rfl]
          rw [hgroup, ← hcelem]
          exact reconstructAt_eraseIdx _ _ hmod
        rw [hstep]
        have hkec : keccak256 ((chunks16 nodes).getD (c / 16) []) =
            ((chunks16 nodes).map keccak256).getD (c / 16) 0 :=
          (getD_map_keccak _ _ hnum).symm
        rw [hkec]
        have hnext : c / 16 < ((chunks16 nodes).map keccak256).length := by
          rw [List.length_map]; exact hnum
        have hlt : ((chunks16 nodes).map keccak256).length < n := by
          rw [List.length_map, chunks16_length]; omega
        exact ih _ (by omega) _ rfl (c / 16) (lvl + 1) hnext
  exact fun c lvl hc => H nodes.length nodes rfl c lvl hc

theorem getD_map_fn (f : List Nat → Nat) (L : List (List Nat)) (j : Nat) (hj : j < L.length)
    (d : Nat) : (L.map f).getD j d = f (L.getD j []) := by
  rw [List.getD_eq_getElem?_getD, List.getElem?_map, List.getD_eq_getElem?_getD,
    List.getElem?_eq_getElem hj]
  rfl

theorem getD_map_nat (f : Nat → Nat) (l : List Nat) (j : Nat) (hj : j < l.length) :
    (l.map f).getD j 0 = f (l.getD j 0) := by
  rw [List.getD_eq_getElem?_getD, List.getElem?_map, List.getD_eq_getElem?_getD,
    List.getElem?_eq_getElem hj]
  rfl

theorem shaped_proof_verifies (kvs : List (Nat × Nat)) (vc : SegmentVC)
    (hsh : Shaped kvs vc) (hnd : (kvs.map Prod.fst).Nodup)
    (i : Nat) (hi : i < kvs.length) :
    ∃ p, vc.generate_proof (kvs.get ⟨i, hi⟩).1 = .ok p ∧ p.verify = true := by
  obtain ⟨hsegs, htot, hidx, hmerk, hroot, hmode⟩ := hsh
  have hne : kvs ≠ [] := by intro h; subst h; simp at hi
  have hvne : List.map Prod.snd kvs ≠ [] := by simpa using hne
  have hvlen : (List.map Prod.snd kvs).length = kvs.length := List.length_map _ _
  have hsegs2 : vc.segments = (chunks16 (List.map Prod.snd kvs)).map mkSeg := by
    rw [hsegs, segsOf, if_neg hvne]
  have hmerk2 : vc.merkle_nodes = levelsOf (List.map Prod.snd kvs) := by
    rw [hmerk, if_neg hvne]
  have hrootv : vc.root_hash = rootOf (levelsOf (List.map Prod.snd kvs)) := by
    rw [hroot, if_neg hvne]
  have hlook := lookup_indicesOf_get kvs hnd i hi
  have hjlt : i / 16 < (chunks16 (List.map Prod.snd kvs)).length := by
    rw [chunks16_length]; omega
  have hseg : vc.segments.getD (i / 16) Segment.empty
      = mkSeg ((chunks16 (List.map Prod.snd kvs)).getD (i / 16) []) := by
    rw [hsegs2, getD_map_mkSeg _ _ hjlt]
  have hclen : ((chunks16 (List.map Prod.snd kvs)).getD (i / 16) []).length
      = min 16 ((List.map Prod.snd kvs).length - 16 * (i / 16)) :=
    chunks16_getD_length _ _ hjlt
  have hmlt : i % 16 < ((chunks16 (List.map Prod.snd kvs)).getD (i / 16) []).length := by
    rw [hclen]; omega
  have hch2 : (((chunks16 (List.map Prod.snd kvs)).getD (i / 16) []).map
        fun x => keccak256 [x]).getD (i % 16) 0
      = keccak256 [((chunks16 (List.map Prod.snd kvs)).getD (i / 16) []).getD (i % 16) 0] :=
    getD_map_nat _ _ _ hmlt
  have hgen : vc.generate_proof (kvs.get ⟨i, hi⟩).1 = Except.ok
      ⟨⟨((chunks16 (List.map Prod.snd kvs)).getD (i / 16) []).getD (i % 16) 0,
        (((chunks16 (List.map Prod.snd kvs)).getD (i / 16) []).map
          fun x => keccak256 [x]).getD (i % 16) 0⟩,
       ⟨i % 16,
        (((chunks16 (List.map Prod.snd kvs)).getD (i / 16) []).map
          fun x => keccak256 [x]).eraseIdx (i % 16)⟩,
       levelProofsFrom (levelsOf (List.map Prod.snd kvs)).dropLast (i / 16) 0,
       rootOf (levelsOf (List.map Prod.snd kvs))⟩ := by
    rw [SegmentVC.generate_proof, hidx, hlook]
    dsimp only
    simp only [Nat.add_sub_cancel, SEGMENT_SIZE]
    rw [hseg, hmerk2, hrootv]
    rfl
  refine ⟨_, hgen, ?_⟩
  ·
    rw [MerkleProof.verify]
    dsimp only
    rw [if_neg (by rw [hch2]; simp)]
    split
    · rfl
    · have hrec : reconstructAt ((((chunks16 (List.map Prod.snd kvs)).getD (i / 16) []).map
          fun x => keccak256 [x]).eraseIdx (i % 16)) (i % 16)
          ((((chunks16 (List.map Prod.snd kvs)).getD (i / 16) []).map
            fun x => keccak256 [x]).getD (i % 16) 0)
          = ((chunks16 (List.map Prod.snd kvs)).getD (i / 16) []).map
            fun x => keccak256 [x] := by
        apply reconstructAt_eraseIdx
        rw [List.length_map]
        exact hmlt
      rw [hrec]
      have hroots_len : i / 16 < ((segsOf (List.map Prod.snd kvs)).map Segment.root).length := by
        rw [List.length_map, segsOf, if_neg hvne, List.length_map]
        exact hjlt
      have hstart : keccak256 (((chunks16 (List.map Prod.snd kvs)).getD (i / 16) []).map
            fun x => keccak256 [x])
          = ((segsOf (List.map Prod.snd kvs)).map Segment.root).getD (i / 16) 0 := by
        rw [segsOf, if_neg hvne, List.map_map]
        rw [getD_map_fn (Segment.root ∘ mkSeg) _ _ hjlt]
        rfl
      rw [hstart, levelsOf, fold_levels _ _ _ hroots_len]
      simp

theorem insert_prove_roundtrip (cap : Nat) (kvs : List (Nat × Nat))
    (hnd : (kvs.map Prod.fst).Nodup) :
    ∃ vc, (SegmentVC.new cap).insertList kvs = Except.ok vc ∧
      ∀ kv ∈ kvs, ∃ p, vc.generate_proof kv.1 = Except.ok p ∧ p.verify = true := by
  obtain ⟨vc, hvc, hsh⟩ := insertList_shaped cap kvs hnd
  refine ⟨vc, hvc, ?_⟩
  intro kv hmem
  obtain ⟨n, hget⟩ := List.mem_iff_get.mp hmem
  obtain ⟨p, hp, hv⟩ := shaped_proof_verifies kvs vc hsh hnd n.1 n.2
  refine ⟨p, ?_, hv⟩
  have heq : kvs.get ⟨n.1, n.2⟩ = kv := by rw [Fin.eta]; exact hget
  rw [heq] at hp
  exact hp

theorem verify_spec (vc : SegmentVC) (key value history_root : Nat) :
    (vc.indices.lookup key = none →
      vc.verify key value history_root = Except.error Err.keyNotFound) ∧
    (∀ idx, vc.indices.lookup key = some idx →
      (vc.verify key value history_root = Except.ok true ↔
        (value = (vc.segments.getD ((idx - 1) / SEGMENT_SIZE) Segment.empty).values.getD
            ((idx - 1) % SEGMENT_SIZE) 0
          ∧ (history_root = vc.root_hash ∨ history_root ∈ vc.root_history.hashes)))) := by
  constructor
  · intro h
    rw [SegmentVC.verify, h]
  · intro idx h
    rw [SegmentVC.verify, h]
    dsimp only
    by_cases hv : value = (vc.segments.getD ((idx - 1) / SEGMENT_SIZE) Segment.empty).values.getD
        ((idx - 1) % SEGMENT_SIZE) 0
    · rw [if_neg (by simpa using hv)]
      simp [CircularHashStore.check_hash, CircularHashStore.hash_exists, hv]
    · rw [if_pos (by simpa using hv)]
      constructor
      · intro hc; simp at hc
      · intro hc; exact absurd hc.1 hv

/-! Order-independence of the two canonicalisers, assuming pairwise-distinct
sort keys. -/

theorem sorted_perm_eq {α : Type} (key : α → Nat) (l₁ l₂ : List α)
    (hp : l₁.Perm l₂)
    (hs₁ : l₁.Pairwise (fun a b => key a ≤ key b))
    (hs₂ : l₂.Pairwise (fun a b => key a ≤ key b))
    (hnd : (l₁.map key).Nodup) : l₁ = l₂ := by
  have hnd₂ : (l₂.map key).Nodup := ((hp.map key).nodup_iff).mp hnd
  have h₁ : l₁.Pairwise (fun a b => key a < key b) := by
    have hne : l₁.Pairwise (fun a b => key a ≠ key b) := List.pairwise_map.mp hnd
    exact (hs₁.and hne).imp (fun h => lt_of_le_of_ne h.1 h.2)
  have h₂ : l₂.Pairwise (fun a b => key a < key b) := by
    have hne : l₂.Pairwise (fun a b => key a ≠ key b) := List.pairwise_map.mp hnd₂
    exact (hs₂.and hne).imp (fun h => lt_of_le_of_ne h.1 h.2)
  haveI : IsAntisymm α (fun a b => key a < key b) :=
    ⟨fun a b h h' => absurd (Nat.lt_trans h h') (Nat.lt_irrefl _)⟩
  exact List.eq_of_perm_of_sorted hp h₁ h₂

theorem payids_root_perm (l₁ l₂ : List PayIdInfo) (hp : l₁.Perm l₂)
    (hnd : (l₁.map (·.id)).Nodup) :
    PayIdsProcessor.get_root_hash l₁ = PayIdsProcessor.get_root_hash l₂ := by
  haveI : IsTotal PayIdInfo (fun a b => a.id ≤ b.id) := ⟨fun a b => Nat.le_total a.id b.id⟩
  haveI : IsTrans PayIdInfo (fun a b => a.id ≤ b.id) := ⟨fun _ _ _ => Nat.le_trans⟩
  have hsorteq : List.insertionSort (fun a b => a.id ≤ b.id) l₁
      = List.insertionSort (fun a b => a.id ≤ b.id) l₂ := by
    apply sorted_perm_eq PayIdInfo.id
    · exact ((List.perm_insertionSort _ l₁).trans hp).trans (List.perm_insertionSort _ l₂).symm
    · exact List.sorted_insertionSort _ l₁
    · exact List.sorted_insertionSort _ l₂
    · exact ((List.perm_insertionSort _ l₁).map PayIdInfo.id).nodup_iff.mpr hnd
  rw [PayIdsProcessor.get_root_hash, PayIdsProcessor.get_root_hash,
    PayIdsProcessor.create_segment_vc, PayIdsProcessor.create_segment_vc, hsorteq]

theorem grouper_receivers_perm (l₁ l₂ : List PaymentSettledByProxy) (hp : l₁.Perm l₂) :
    List.insertionSort (fun a b => a ≤ b) (l₁.map (·.receiver)).dedup
      = List.insertionSort (fun a b => a ≤ b) (l₂.map (·.receiver)).dedup := by
  haveI : IsTotal Nat (fun a b => a ≤ b) := ⟨Nat.le_total⟩
  haveI : IsTrans Nat (fun a b => a ≤ b) := ⟨fun _ _ _ => Nat.le_trans⟩
  apply sorted_perm_eq (fun x : Nat => x)
  · exact ((List.perm_insertionSort _ _).trans ((hp.map _).dedup)).trans
      (List.perm_insertionSort _ _).symm
  · exact List.sorted_insertionSort _ _
  · exact List.sorted_insertionSort _ _
  · rw [List.map_id']
    exact ((List.perm_insertionSort _ _)).nodup_iff.mpr (List.nodup_dedup _)

theorem grouper_leaf_perm (l₁ l₂ : List PaymentSettledByProxy) (hp : l₁.Perm l₂)
    (hnd : (l₁.map PaymentSettledByProxy.to_key).Nodup) (r : Nat) :
    PaymentsGrouper.receiverLeaf l₁ r = PaymentsGrouper.receiverLeaf l₂ r := by
  haveI : IsTotal (Nat × Nat) (fun a b => a.1 ≤ b.1) := ⟨fun a b => Nat.le_total a.1 b.1⟩
  haveI : IsTrans (Nat × Nat) (fun a b => a.1 ≤ b.1) := ⟨fun _ _ _ => Nat.le_trans⟩
  have hgp : (l₁.filter fun p => p.receiver == r).Perm (l₂.filter fun p => p.receiver == r) :=
    hp.filter _
  have hmnd : (((l₁.filter fun p => p.receiver == r).map
      fun p => (p.to_key, p.hash)).map Prod.fst).Nodup := by
    rw [List.map_map]
    have hsub : ((l₁.filter fun p => p.receiver == r).map
          (Prod.fst ∘ fun p => (p.to_key, p.hash))).Sublist
        (l₁.map PaymentSettledByProxy.to_key) :=
      (List.filter_sublist l₁).map _
    exact hsub.nodup hnd
  have hsorteq : List.insertionSort (fun a b => a.1 ≤ b.1)
        ((l₁.filter fun p => p.receiver == r).map fun p => (p.to_key, p.hash))
      = List.insertionSort (fun a b => a.1 ≤ b.1)
        ((l₂.filter fun p => p.receiver == r).map fun p => (p.to_key, p.hash)) := by
    apply sorted_perm_eq Prod.fst
    · exact ((List.perm_insertionSort _ _).trans (hgp.map _)).trans
        (List.perm_insertionSort _ _).symm
    · exact List.sorted_insertionSort _ _
    · exact List.sorted_insertionSort _ _
    · exact ((List.perm_insertionSort _ _).map Prod.fst).nodup_iff.mpr hmnd
  rw [PaymentsGrouper.receiverLeaf, PaymentsGrouper.receiverLeaf, hsorteq]

theorem grouper_perm (l₁ l₂ : List PaymentSettledByProxy) (hp : l₁.Perm l₂)
    (hnd : (l₁.map PaymentSettledByProxy.to_key).Nodup) :
    PaymentsGrouper.group_by_receiver l₁ = PaymentsGrouper.group_by_receiver l₂ := by
  have hrec := grouper_receivers_perm l₁ l₂ hp
  have hmap : (List.insertionSort (fun a b => a ≤ b) (l₂.map (·.receiver)).dedup).map
        (fun r => (eth_address_to_B256 r, PaymentsGrouper.receiverLeaf l₁ r))
      = (List.insertionSort (fun a b => a ≤ b) (l₂.map (·.receiver)).dedup).map
        (fun r => (eth_address_to_B256 r, PaymentsGrouper.receiverLeaf l₂ r)) :=
    List.map_congr_left (fun r _ => by rw [grouper_leaf_perm l₁ l₂ hp hnd r])
  rw [PaymentsGrouper.group_by_receiver, PaymentsGrouper.group_by_receiver, hrec, hmap]
theorem profit_go_sum (service_configs : List ServiceFeeConfig) :
    ∀ (receipts : List PaymentSettledByProxy) (s p r s' p' r' : Nat),
    ReceiptsProfitCalculator.calculate_profits_go service_configs receipts s p r = .ok (s', p', r') →
    s' + p' + r' = s + p + r + (receipts.map (·.amount)).sum := by
  intro receipts
  induction receipts with
  | nil =>
    intro s p r s' p' r' h
    simp only [ReceiptsProfitCalculator.calculate_profits_go, Except.ok.injEq, Prod.mk.injEq] at h
    simp only [List.map_nil, List.sum_nil]
    omega
  | cons receipt rest ih =>
    intro s p r s' p' r' h
    simp only [ReceiptsProfitCalculator.calculate_profits_go] at h
    cases hcfg : ReceiptsProfitCalculator.lookupConfig service_configs receipt.serv_id with
    | none => rw [hcfg] at h; exact absurd h (by simp)
    | some config =>
      rw [hcfg] at h
      repeat' split at h
      all_goals try exact absurd h (by simp)
      have hsum := ih _ _ _ _ _ _ h
      simp only [List.map_cons, List.sum_cons]
      simp only [checked_mul, checked_div, checked_add, checked_sub,
        Option.ite_none_right_eq_some, Option.some.injEq] at *
      omega
theorem checkPids_ok_iff (infos : List PayIdInfo) (pays : List PaymentSettledByProxy) :
    ∀ pids : List Nat,
    (ReceiptsOverpayChecker.checkPids infos pays pids = .ok () ↔
      ∀ pid ∈ pids, ∃ a, ReceiptsOverpayChecker.lookupAmount infos pid = some a ∧
        ReceiptsOverpayChecker.sumFor pays pid ≤ a) := by
  intro pids
  induction pids with
  | nil => simp [ReceiptsOverpayChecker.checkPids]
  | cons pid rest ih =>
    simp only [ReceiptsOverpayChecker.checkPids]
    cases hl : ReceiptsOverpayChecker.lookupAmount infos pid with
    | none =>
      constructor
      · intro h; exact absurd h (by simp)
      · intro hall
        obtain ⟨a, ha, _⟩ := hall pid (List.mem_cons_self pid rest)
        rw [hl] at ha; cases ha
    | some a =>
      dsimp only
      split
      next hgt =>
        constructor
        · intro h; exact absurd h (by simp)
        · intro hall
          obtain ⟨b, hb, hle⟩ := hall pid (List.mem_cons_self pid rest)
          rw [hl] at hb; injection hb with hb; omega
      next hgt =>
        rw [ih]
        constructor
        · intro hrest pid' hm
          rcases List.mem_cons.mp hm with rfl | hm'
          · exact ⟨a, hl, by omega⟩
          · exact hrest pid' hm'
        · intro hall pid' hm'
          exact hall pid' (List.mem_cons_of_mem pid hm')

theorem lookupAmount_iff (infos : List PayIdInfo) (hnd : (infos.map (·.id)).Nodup) (pid : Nat) :
    ∀ a, (ReceiptsOverpayChecker.lookupAmount infos pid = some a ↔
      ∃ info ∈ infos, info.id = pid ∧ info.amount = a) := by
  intro a
  constructor
  · intro h
    simp only [ReceiptsOverpayChecker.lookupAmount, Option.map_eq_some'] at h
    obtain ⟨info, hfind, ha⟩ := h
    have hmem : info ∈ infos := List.mem_reverse.mp (List.mem_of_find?_eq_some hfind)
    have hid : info.id = pid := by
      have := List.find?_some hfind
      simpa using this
    exact ⟨info, hmem, hid, ha⟩
  · rintro ⟨info, hmem, hid, ha⟩
    have hsome : (infos.reverse.find? fun i => i.id == pid).isSome := by
      rw [List.find?_isSome]
      exact ⟨info, List.mem_reverse.mpr hmem, by simpa using hid⟩
    obtain ⟨info', hfind⟩ := Option.isSome_iff_exists.mp hsome
    have hmem' : info' ∈ infos := List.mem_reverse.mp (List.mem_of_find?_eq_some hfind)
    have hid' : info'.id = pid := by have := List.find?_some hfind; simpa using this
    have : info' = info := by
      apply List.inj_on_of_nodup_map hnd hmem' hmem
      rw [hid, hid']
    subst this
    simp only [ReceiptsOverpayChecker.lookupAmount, hfind, Option.map_some', ha]

theorem validate_overpayment_iff (infos : List PayIdInfo) (pays : List PaymentSettledByProxy)
    (hnd : (infos.map (·.id)).Nodup) :
    (ReceiptsOverpayChecker.validate_overpayment infos pays = .ok () ↔
      ∀ pid ∈ pays.map (·.pay_id), ∃ info ∈ infos, info.id = pid ∧
        ReceiptsOverpayChecker.sumFor pays pid ≤ info.amount) := by
  rw [ReceiptsOverpayChecker.validate_overpayment, checkPids_ok_iff]
  constructor
  · intro h pid hm
    obtain ⟨a, ha, hle⟩ := h pid (List.mem_dedup.mpr hm)
    obtain ⟨info, hmem, hid, hamt⟩ := (lookupAmount_iff infos hnd pid a).mp ha
    exact ⟨info, hmem, hid, by omega⟩
  · intro h pid hm
    obtain ⟨info, hmem, hid, hle⟩ := h pid (List.mem_dedup.mp hm)
    exact ⟨info.amount, (lookupAmount_iff infos hnd pid info.amount).mpr ⟨info, hmem, hid, rfl⟩, hle⟩
def histStep (h o : Nat) : Nat := if h = 0 then o else keccak256_more h o

/-- The history digest accumulated by evicting a list of hashes in order. -/
def histOf (l : List Nat) : Nat := l.foldl histStep 0

theorem keccak256_ne_zero (l : List Nat) : keccak256 l ≠ 0 :=
  Nat.succ_ne_zero _

theorem headD_drop (l : List Nat) : ∀ j d, (l.drop j).headD d = l.getD j d := by
  induction l with
  | nil => intro j d; cases j <;> rfl
  | cons a t ih =>
    intro j d
    cases j with
    | zero => rfl
    | succ j => simpa using ih j d

theorem addList_append (l₁ l₂ : List Nat) : ∀ s,
    CircularHashStore.addList s (l₁ ++ l₂) =
      (CircularHashStore.addList s l₁).bind fun s => CircularHashStore.addList s l₂ := by
  induction l₁ with
  | nil => intro s; rfl
  | cons a t ih =>
    intro s
    simp only [List.cons_append, CircularHashStore.addList]
    cases s.add_hash a with
    | error e => rfl
    | ok p => exact ih p.1

theorem addList_new_eq (C : Nat) (hC : 1 ≤ C) (l : List Nat) (hnz : ∀ h ∈ l, h ≠ 0) :
    CircularHashStore.addList (CircularHashStore.new C) l =
      .ok ⟨l.drop (l.length - C), histOf (l.take (l.length - C)), l.length, C⟩ := by
  induction l using List.reverseRecOn with
  | nil => simp [CircularHashStore.addList, CircularHashStore.new, histOf]
  | append_singleton l x ih =>
    have hx : x ≠ 0 := hnz x (by simp)
    have hnz' : ∀ h ∈ l, h ≠ 0 := fun h hm => hnz h (by simp [hm])
    rw [addList_append, ih hnz']
    have hlen : (l ++ [x]).length = l.length + 1 := by simp
    simp only [Except.bind]
    simp only [CircularHashStore.addList, CircularHashStore.add_hash, if_neg hx]
    by_cases hcap : l.length < C
    · have h0 : l.length - C = 0 := by omega
      have h0' : l.length + 1 - C = 0 := by omega
      rw [h0]
      simp only [List.drop_zero, List.take_zero, List.length_nil]
      have hne : ¬ l.length = C := by omega
      rw [hlen, h0']
      simp only [histOf, List.foldl_nil, if_neg hne, List.drop_zero, List.take_zero]
    · -- window is full: evict the oldest entry
      have hwlen : (l.drop (l.length - C)).length = C := by
        simp [List.length_drop]; omega
      have hfull : (l.drop (l.length - C)).length = C := hwlen
      rw [hlen]
      simp only [hwlen, if_pos rfl]
      have hidx : l.length + 1 - C = (l.length - C) + 1 := by omega
      have hle : l.length - C < l.length := by omega
      -- the evicted entry
      have hold : (l.drop (l.length - C)).headD 0 = l.getD (l.length - C) 0 := headD_drop l _ 0
      -- new window
      have hwin : (l.drop (l.length - C)).tail ++ [x] = (l ++ [x]).drop (l.length + 1 - C) := by
        rw [hidx, List.drop_append_of_le_length (by omega), List.tail_drop]
      -- new history
      have htake : (l ++ [x]).take (l.length + 1 - C) = l.take ((l.length - C) + 1) := by
        rw [hidx, List.take_append_of_le_length (by omega)]
      have hhist : histStep (histOf (l.take (l.length - C))) (l.getD (l.length - C) 0) =
          histOf ((l ++ [x]).take (l.length + 1 - C)) := by
        rw [htake]
        have hsucc : l.take ((l.length - C) + 1) = l.take (l.length - C) ++ [l.getD (l.length - C) 0] := by
          rw [List.take_succ]
          congr 1
          rw [List.getElem?_eq_getElem hle]
          simp [List.getD_eq_getElem?_getD, List.getElem?_eq_getElem hle]
        rw [hsucc, histOf, histOf, List.foldl_append]
        rfl
      rw [← hwin, ← hhist, hold]
      rfl

theorem foldl_histStep_eq (hs : List Nat) : ∀ acc, acc ≠ 0 →
    List.foldl histStep acc hs = List.foldl (fun c p => keccak256_more c p) acc hs := by
  induction hs with
  | nil => intro acc _; rfl
  | cons a t ih =>
    intro acc hacc
    simp only [List.foldl_cons, histStep, if_neg hacc]
    exact ih _ (keccak256_ne_zero _)

theorem hashstore_eviction_general (C k : Nat) (l : List Nat) (hC : 1 ≤ C) (hk : 1 ≤ k)
    (hlen : l.length = C + k) (hnz : ∀ h ∈ l, h ≠ 0) (hnd : l.Nodup) :
    ∃ s, CircularHashStore.addList (CircularHashStore.new C) l = .ok s ∧
      s.current_size = C ∧ s.total_added = C + k ∧
      (∀ h ∈ l.take k, s.hash_exists h = false) ∧
      (∀ h₁ hs, l.take k = h₁ :: hs → 2 ≤ k → s.check_hash h₁ hs = true) := by
  have hk' : l.length - C = k := by omega
  have hnd' : (l.take k ++ l.drop k).Nodup := by rw [List.take_append_drop]; exact hnd
  have hdisj : (l.take k).Disjoint (l.drop k) := (List.nodup_append.mp hnd').2.2
  have hchar := addList_new_eq C hC l hnz
  rw [hk'] at hchar
  refine ⟨_, hchar, ?_, ?_, ?_, ?_⟩
  · simp only [CircularHashStore.current_size, List.length_drop]
    omega
  · simpa using hlen
  · intro h hm
    have : h ∉ l.drop k := fun hc => hdisj hm hc
    simp only [CircularHashStore.hash_exists]
    simpa using this
  · intro h₁ hs htake hk2
    have hmem₁ : h₁ ∈ l.take k := by rw [htake]; exact List.mem_cons_self _ _
    have hnotin : h₁ ∉ l.drop k := fun hc => hdisj hmem₁ hc
    have hcont : (l.drop k).contains h₁ = false := by simpa using hnotin
    have hlenk : (l.take k).length = k := by simp; omega
    have hhs : hs.isEmpty = false := by
      rw [htake] at hlenk
      simp only [List.length_cons] at hlenk
      cases hs with
      | nil => simp at hlenk; omega
      | cons _ _ => rfl
    have h₁nz : h₁ ≠ 0 := hnz h₁ (List.mem_of_mem_take hmem₁)
    have hfold : hs.foldl (fun c p => keccak256_more c p) h₁ = histOf (l.take k) := by
      rw [htake, histOf, List.foldl_cons]
      have : histStep 0 h₁ = h₁ := by simp [histStep]
      rw [this, foldl_histStep_eq hs h₁ h₁nz]
    simp only [CircularHashStore.check_hash, hcont, hhs, Bool.false_eq_true, if_false, hfold]
    simp

/-! ### The claims -/

/-- C1. The spec says the settlement id binds `receipts_root`:
`H(H(proxy ‖ pay_ids_root ‖ serv_ids_root ‖ profits ‖ amount) ‖ receipts_root)`,
and that `verify_settlement_id` recomputes this from the given
`receipts_root` and round-trips with the construction.  The code of
`build_settlement_id` instead passes `self.pay_ids_root` as the second
preimage, so the id produced by `aggregate` verifies against the
**pay_ids_root** (44) and fails against the common receipts_root (33) of the
inputs: the construction↔verification round trip of the spec does not hold. -/
theorem c1_aggregate_settlement_id_uses_pay_ids_root :
    (ProxySettlementAggregator.aggregate [⟨11, 22, 33, 44, 55, 10, 20, 30⟩]
        ⟨0, [], 44⟩).toOption.map
      (fun r => (r.verify_settlement_id 33, r.verify_settlement_id 44)) = some (false, true) := by
  decide

/-- C2. The two pipeline halves disagree on `pay_ids_root` for the very same
`PayIdInfo` set: `PayIdsProcessor.get_root_hash` builds a `SegmentVC` over the
record hashes (root = Keccak of per-chunk Keccaks), while
`ReceiptsProfitCalculator.calculate_pay_ids_root` takes one flat Keccak over
the sorted record hashes.  The roots differ already for a single record, and
`ProxySettlementAggregator.pre_validate` fed the matching outputs of one run
rejects them with `overpayCheckPayIdsRootMismatch`. -/
theorem c2_checker_vs_calculator_pay_ids_root_mismatch :
    (PayIdsProcessor.get_root_hash [⟨1, 1000, 3, 4, 1, 0, 0⟩]).toOption.map
      (fun r =>
        (decide (r = ReceiptsProfitCalculator.calculate_pay_ids_root [⟨1, 1000, 3, 4, 1, 0, 0⟩]),
         ProxySettlementAggregator.pre_validate
           [⟨9, 4, 77, ReceiptsProfitCalculator.calculate_pay_ids_root [⟨1, 1000, 3, 4, 1, 0, 0⟩],
             55, 10, 20, 30⟩]
           ⟨0, [], r⟩))
      = some (false, Except.error Err.overpayCheckPayIdsRootMismatch) := by
  decide

/-- C3. The receipts root carried by a `ProfitResult` is the `SegmentVC` root
produced by `PaymentsGrouper.group_by_receiver` (the root of the verified
inclusion proof), but `ReceiverSettler.process_proxy_settlement` recomputes a
**chained** hash `H(prev ‖ H(receipt))` starting from zero.  The two schemes
never meet: handing the settler the grouper root for the identical
single-receipt list fails with `paymentsRootMismatch` instead of
reconciling. -/
theorem c3_receiver_settler_rejects_grouper_root :
    ((PaymentsGrouper.group_by_receiver
        [⟨1, 2, 100, 9, .raw 1, true, .raw 2⟩]).toOption.map Prod.fst).map
      (fun root => ReceiverSettler.process_proxy_settlement (ReceiverSettler.new 9)
        [⟨1, 2, 100, 9, .raw 1, true, .raw 2⟩] ⟨9, 22, root, 0, 0, 1, 2, 3⟩)
      = some (Except.error Err.paymentsRootMismatch) := by
  decide

/-- C4. `Payment.sign` signs `keccak256 [pay_id, serv_id, amount, receiver]`
but `Payment.recover_signer` recovers against
`keccak256 [pay_id, serv_id, receiver]` — the `amount` field is dropped from
the recovery preimage.  The two preimages are distinct field lists, so
recovery runs on a different message hash than was signed and
`get_signer_address` does not return the signing key's address: the
sign-then-recover round trip fails on every payment (checked here on a
concrete one). -/
theorem c4_sign_recover_address_mismatch :
    (Payment.sign ⟨1, 2, 100, 7, .raw 0⟩ 5).get_signer_address ≠
      Except.ok (get_ethereum_address (pubOfSecret 5)) := by
  decide

/-- C5. Profit conservation: whenever
`ReceiptsProfitCalculator.calculate_profits` returns `ok (system, proxy,
receiver)`, the three components sum exactly to the sum of the receipt
amounts — the fee split never creates or destroys value, the receiver
absorbing each rounding remainder.  (The accumulations are overflow-checked;
an overflow or missing fee entry yields an error, not a wrong total.) -/
theorem c5_profit_conservation (service_configs : List ServiceFeeConfig)
    (receipts : List PaymentSettledByProxy) (s p r : Nat)
    (h : ReceiptsProfitCalculator.calculate_profits service_configs receipts = .ok (s, p, r)) :
    s + p + r = (receipts.map (·.amount)).sum := by
  have hg := profit_go_sum service_configs receipts 0 0 0 s p r h
  simpa using hg

theorem c5_profit_conservation_witness :
    10 + 20 + 70 = (([⟨1, 2, 100, 7, .raw 0, true, .raw 0⟩] :
      List PaymentSettledByProxy).map (·.amount)).sum :=
  c5_profit_conservation [⟨2, 1000, 2000⟩] [⟨1, 2, 100, 7, .raw 0, true, .raw 0⟩]
    10 20 70 (by decide)

/-- C6. Insert/prove round trip: batch-inserting any list of entries with
pairwise-distinct keys into a fresh `SegmentVC` succeeds, and afterwards
`generate_proof` succeeds for every inserted key with a `MerkleProof` that
satisfies `verify = true`. -/
theorem c6_insert_prove_roundtrip (cap : Nat) (kvs : List (Nat × Nat))
    (hnd : (kvs.map Prod.fst).Nodup) :
    ∃ vc, (SegmentVC.new cap).insertList kvs = Except.ok vc ∧
      ∀ kv ∈ kvs, ∃ p, vc.generate_proof kv.1 = Except.ok p ∧ p.verify = true :=
  insert_prove_roundtrip cap kvs hnd

theorem c6_insert_prove_roundtrip_witness :
    ∃ vc, (SegmentVC.new 2).insertList [(1, 10), (2, 20)] = Except.ok vc ∧
      ∀ kv ∈ ([(1, 10), (2, 20)] : List (Nat × Nat)),
        ∃ p, vc.generate_proof kv.1 = Except.ok p ∧ p.verify = true :=
  c6_insert_prove_roundtrip 2 [(1, 10), (2, 20)] (by decide)

/-- C7 (amended). Overpayment validation, characterised: with
pairwise-distinct `PayIdInfo` ids, `validate_overpayment` succeeds exactly
when every `pay_id` occurring in the receipts has a matching `PayIdInfo`
whose `amount` bounds that pay_id's **wrapped** receipt total — `sumFor`
accumulates with the mod-`2 ^ 256` semantics of the bare `U256` `+=` the
source uses.  On in-range totals this is the original claim: receipts
summing exactly to the authorised amount pass, one unit more fails, and an
unknown `pay_id` never passes.  (The original unbounded-sum reading is
false of the program: a per-`pay_id` total reaching `2 ^ 256` wraps and
slips past the check — see the counterexample.) -/
theorem c7_overpay_validation_iff (infos : List PayIdInfo)
    (pays : List PaymentSettledByProxy) (hnd : (infos.map (·.id)).Nodup) :
    ReceiptsOverpayChecker.validate_overpayment infos pays = .ok () ↔
      ∀ pid ∈ pays.map (·.pay_id), ∃ info ∈ infos, info.id = pid ∧
        ReceiptsOverpayChecker.sumFor pays pid ≤ info.amount :=
  validate_overpayment_iff infos pays hnd

theorem c7_overpay_validation_iff_witness :
    ReceiptsOverpayChecker.validate_overpayment [⟨1, 1000, 3, 4, 1, 0, 0⟩]
      [⟨1, 1, 600, 9, .raw 1, true, .raw 2⟩, ⟨1, 2, 400, 9, .raw 1, true, .raw 2⟩] = .ok () :=
  (c7_overpay_validation_iff [⟨1, 1000, 3, 4, 1, 0, 0⟩]
    [⟨1, 1, 600, 9, .raw 1, true, .raw 2⟩, ⟨1, 2, 400, 9, .raw 1, true, .raw 2⟩]
    (by decide)).mpr (by decide)

/-- C7, counterexample to the original claim: one `PayIdInfo` authorising
1000, two receipts of `2 ^ 255` each for that `pay_id`.  The accumulated
`U256` total wraps to `0 ≤ 1000`, so `validate_overpayment` accepts, although
the true sum `2 ^ 256` vastly exceeds the authorisation: the unchecked
`+=` lets an overflowing receipt set bypass exactly the bound this claim
characterises. -/
theorem c7_overflow_bypass :
    ReceiptsOverpayChecker.validate_overpayment [⟨1, 1000, 3, 4, 1, 0, 0⟩]
        [⟨1, 1, 2 ^ 255, 9, .raw 1, true, .raw 2⟩, ⟨1, 2, 2 ^ 255, 9, .raw 1, true, .raw 2⟩]
        = .ok () ∧
      1000 < 2 ^ 255 + 2 ^ 255 := by
  constructor <;> decide

/-- C8 (amended). After adding `C + k` distinct non-zero hashes to a store of
capacity `C ≥ 1` (`k ≥ 1`), `current_size = C`, `total_added = C + k`, and
the earliest `k` hashes are all absent from the live window.  Of those only
the **first** evicted hash is provable through the eviction path: with
`k ≥ 2`, `check_hash h₁ hs = true` where `h₁ :: hs` are the `k` evicted
hashes in order — `h₁` the first evicted, `hs` the ones evicted after it.
(The original claim, that **every** evicted hash is provable with the list of
its subsequently evicted hashes, fails: the fold accumulates from the first
eviction onward, see the counterexample.) -/
theorem c8_hashstore_eviction (C k : Nat) (l : List Nat) (hC : 1 ≤ C) (hk : 1 ≤ k)
    (hlen : l.length = C + k) (hnz : ∀ h ∈ l, h ≠ 0) (hnd : l.Nodup) :
    ∃ s, CircularHashStore.addList (CircularHashStore.new C) l = .ok s ∧
      s.current_size = C ∧ s.total_added = C + k ∧
      (∀ h ∈ l.take k, s.hash_exists h = false) ∧
      (∀ h₁ hs, l.take k = h₁ :: hs → 2 ≤ k → s.check_hash h₁ hs = true) :=
  hashstore_eviction_general C k l hC hk hlen hnz hnd

theorem c8_hashstore_eviction_witness :
    ∃ s, CircularHashStore.addList (CircularHashStore.new 1) [5, 6, 7] = .ok s ∧
      s.current_size = 1 ∧ s.total_added = 1 + 2 ∧
      (∀ h ∈ ([5, 6, 7] : List Nat).take 2, s.hash_exists h = false) ∧
      (∀ h₁ hs, ([5, 6, 7] : List Nat).take 2 = h₁ :: hs → 2 ≤ 2 → s.check_hash h₁ hs = true) :=
  c8_hashstore_eviction 1 2 [5, 6, 7] (by decide) (by decide) (by decide) (by decide) (by decide)

/-- C8, counterexample to the original claim: capacity 1, hashes 5, 6, 7.
The second evicted hash 6 is absent from the window, and its eviction-path
proof (the list of hashes evicted after it — here none) is rejected:
`check_hash 6 [] = false`, because the history fold starts at the first
eviction, so no evicted hash besides the first satisfies the claimed
property. -/
theorem c8_second_evicted_unprovable :
    ((CircularHashStore.new 1).addList [5, 6, 7]).toOption.map
      (fun s => (s.hash_exists 6, s.check_hash 6 [])) = some (false, false) := by
  decide

/-- C9 (amended). `SegmentVC.verify` fails with `keyNotFound` when the key is
absent; when the key is present it returns `ok true` **iff** the stored value
matches and `history_root` is the current root or still sits in the live
window of the history store.  (The original claim also accepted roots
reachable only via the eviction chain; the code passes an **empty** history
proof to `check_hash`, whose chain-replay branch then never fires, so evicted
roots are rejected — see the counterexample.) -/
theorem c9_verify_characterization (vc : SegmentVC) (key value history_root : Nat) :
    (vc.indices.lookup key = none →
      vc.verify key value history_root = Except.error Err.keyNotFound) ∧
    (∀ idx, vc.indices.lookup key = some idx →
      (vc.verify key value history_root = Except.ok true ↔
        (value = (vc.segments.getD ((idx - 1) / SEGMENT_SIZE) Segment.empty).values.getD
            ((idx - 1) % SEGMENT_SIZE) 0
          ∧ (history_root = vc.root_hash ∨ history_root ∈ vc.root_history.hashes)))) :=
  verify_spec vc key value history_root

def vcC9 : SegmentVC :=
  match (SegmentVC.new 4).insertList [(1, 10)] with
  | .ok vc => vc
  | .error _ => SegmentVC.new 4

theorem c9_verify_characterization_witness :
    vcC9.verify 1 10 vcC9.root_hash = Except.ok true ∧
      vcC9.verify 2 10 vcC9.root_hash = Except.error Err.keyNotFound :=
  ⟨((c9_verify_characterization vcC9 1 10 vcC9.root_hash).2 1 (by decide)).mpr
      ⟨by decide, Or.inl rfl⟩,
    (c9_verify_characterization vcC9 2 10 vcC9.root_hash).1 (by decide)⟩

/-- C9, counterexample to the original claim: capacity 1; after a second
insertion the first root is evicted into the history chain
(`root_history.history_hash` equals it exactly), yet `verify` on the correct
key and value with that past root returns `ok false` — a root reachable via
the eviction chain is **not** accepted. -/
theorem c9_evicted_root_rejected :
    ((SegmentVC.new 1).insertList [(1, 10)]).toOption.bind (fun a =>
      ((SegmentVC.new 1).insertList [(1, 10), (2, 20)]).toOption.map (fun b =>
        (decide (b.root_history.history_hash = a.root_hash), b.verify 1 10 a.root_hash)))
      = some (true, Except.ok false) := by
  decide

/-- C10 (amended). Order-independence of the two canonicalisers holds under
pairwise-distinct sort keys: permuting a `PayIdInfo` list with distinct ids
leaves `PayIdsProcessor.get_root_hash` unchanged, and permuting a payment
list with pairwise-distinct `to_key` values (the `(pay_id, serv_id,
receiver)` content key) leaves `PaymentsGrouper.group_by_receiver`
unchanged.  (Unrestricted order-independence fails: with two payments that
share a `to_key` but differ in `amount`, the stable sort preserves the input
order of the equal-key records and the roots differ — see the
counterexample.) -/
theorem c10_canonicalizers_order_independent (infos₁ infos₂ : List PayIdInfo)
    (pays₁ pays₂ : List PaymentSettledByProxy)
    (hpi : infos₁.Perm infos₂) (hndi : (infos₁.map (·.id)).Nodup)
    (hpp : pays₁.Perm pays₂) (hndp : (pays₁.map PaymentSettledByProxy.to_key).Nodup) :
    PayIdsProcessor.get_root_hash infos₁ = PayIdsProcessor.get_root_hash infos₂ ∧
      PaymentsGrouper.group_by_receiver pays₁ = PaymentsGrouper.group_by_receiver pays₂ :=
  ⟨payids_root_perm infos₁ infos₂ hpi hndi, grouper_perm pays₁ pays₂ hpp hndp⟩

theorem c10_canonicalizers_order_independent_witness :
    PayIdsProcessor.get_root_hash [⟨1, 10, 0, 0, 0, 0, 0⟩, ⟨2, 20, 0, 0, 0, 0, 0⟩]
        = PayIdsProcessor.get_root_hash [⟨2, 20, 0, 0, 0, 0, 0⟩, ⟨1, 10, 0, 0, 0, 0, 0⟩] ∧
      PaymentsGrouper.group_by_receiver
          [⟨1, 1, 100, 9, .raw 1, true, .raw 2⟩, ⟨2, 1, 200, 8, .raw 1, true, .raw 2⟩]
        = PaymentsGrouper.group_by_receiver
          [⟨2, 1, 200, 8, .raw 1, true, .raw 2⟩, ⟨1, 1, 100, 9, .raw 1, true, .raw 2⟩] :=
  c10_canonicalizers_order_independent _ _ _ _ (by decide) (by decide) (by decide) (by decide)

/-- C10, counterexample to the original claim: two payments with the same
`(pay_id, serv_id, receiver)` key but different amounts.  Both presentation
orders are accepted by `group_by_receiver`, yet the two roots differ — the
stable per-group sort leaks the input order of equal-key records into the
commitment. -/
theorem c10_grouper_order_dependent :
    ((PaymentsGrouper.group_by_receiver [⟨1, 2, 100, 9, .raw 1, true, .raw 2⟩,
        ⟨1, 2, 200, 9, .raw 1, true, .raw 2⟩]).toOption.map Prod.fst).isSome ∧
      (PaymentsGrouper.group_by_receiver [⟨1, 2, 100, 9, .raw 1, true, .raw 2⟩,
          ⟨1, 2, 200, 9, .raw 1, true, .raw 2⟩]).toOption.map Prod.fst ≠
        (PaymentsGrouper.group_by_receiver [⟨1, 2, 200, 9, .raw 1, true, .raw 2⟩,
          ⟨1, 2, 100, 9, .raw 1, true, .raw 2⟩]).toOption.map Prod.fst := by
  constructor <;> decide
